import Mathlib

/-!
Verification of the Privacy Shield core of the `aura_verdi` repository.

JavaScript strings are modelled as `List Char`.  The functions below are
shallow embeddings of:
  * `src/lib/redaction/patterns.ts`        (the PII pattern catalogue)
  * `src/lib/redaction/pii-detector.ts`    (`detectPII`)
  * the pseudonymizer (`applyRedactions`)
  * `src/lib/redaction/un-redact.ts`       (`unRedact`)
  * the decision logic of `src/app/api/documents/analyze/route.ts`

JS built-ins used by that code (`String.prototype.slice`, `split`/`join`,
`Array.prototype.sort` (stable, ES2019), `RegExp.prototype.exec` with the
`g` flag, plain-object `Record` insertion-order key semantics,
`String.fromCharCode`, `JSON.parse`) are modelled explicitly, following the
ECMAScript semantics for the constructs these sources actually use.
-/

namespace Aura

/-- JS `s.slice(a, b)` for non-negative in-order arguments (the only form the
sources use): characters from index `a` (inclusive) to `b` (exclusive),
clamped to the string. -/
def jsSlice (s : List Char) (a b : Nat) : List Char :=
  (s.take b).drop a

/-- JS `s.slice(a)` for non-negative `a`. -/
def jsDrop (s : List Char) (a : Nat) : List Char :=
  s.drop a

/-- JS `s.slice(-n)` (the last `n` characters). -/
def jsLast (s : List Char) (n : Nat) : List Char :=
  s.drop (s.length - n)

/-- The character set of JS `\s` (ECMAScript WhiteSpace ∪ LineTerminator),
used by the detector's normalisation `replace(/\s/g, '')` and by the
`\s` atoms of the patterns. -/
def isJsSpace (c : Char) : Bool :=
  c.toNat = 9 ∨ c.toNat = 10 ∨ c.toNat = 11 ∨ c.toNat = 12 ∨ c.toNat = 13 ∨
  c.toNat = 32 ∨ c.toNat = 160 ∨ c.toNat = 0x1680 ∨
  (0x2000 ≤ c.toNat ∧ c.toNat ≤ 0x200a) ∨
  c.toNat = 0x2028 ∨ c.toNat = 0x2029 ∨ c.toNat = 0x202f ∨
  c.toNat = 0x205f ∨ c.toNat = 0x3000 ∨ c.toNat = 0xfeff

/-- JS `\w` (`[A-Za-z0-9_]`), also the word-character test of `\b`. -/
def isWordChar (c : Char) : Bool :=
  ('a' ≤ c ∧ c ≤ 'z') ∨ ('A' ≤ c ∧ c ≤ 'Z') ∨ ('0' ≤ c ∧ c ≤ '9') ∨ c = '_'

/-- JS `\d`. -/
def isDigit09 (c : Char) : Bool :=
  '0' ≤ c ∧ c ≤ '9'

/-- JS `String.fromCharCode` (argument is converted with ToUint16).  For the
code points the detector can actually produce this agrees with the JS
string of one UTF-16 code unit. -/
def fromCharCode (n : Nat) : Char :=
  Char.ofNat (n % 65536)

/-- Stable insertion of one element into a list, used to model the stable
JS `Array.prototype.sort`: `le a b` means the comparator does not require
`b` before `a` (comparator result `≤ 0`). -/
def insertLe {α : Type} (le : α → α → Bool) (a : α) : List α → List α
  | [] => [a]
  | b :: l => if le a b then a :: b :: l else b :: insertLe le a l

/-- Stable sort (insertion sort).  JS `Array.prototype.sort` is required to
be stable (ES2019); a stable sort w.r.t. a total preorder is unique, so any
stable algorithm is a faithful model of the source's `sort(comparator)`. -/
def sortBy {α : Type} (le : α → α → Bool) (l : List α) : List α :=
  l.foldr (insertLe le) []

/-- Lookup in a JS plain object used as a `Record`: first (only) binding of
the key.  Keys are kept unique by `recUpsert`. -/
def recLookup (m : List (List Char × List Char)) (k : List Char) :
    Option (List Char) :=
  match m with
  | [] => none
  | (k', v) :: rest => if k' = k then some v else recLookup rest k

/-- JS `obj[k] = v` on a plain object: re-assigning an existing key keeps
its original position in `Object.keys`; a new key is appended. -/
def recUpsert (m : List (List Char × List Char)) (k v : List Char) :
    List (List Char × List Char) :=
  match m with
  | [] => [(k, v)]
  | (k', v') :: rest =>
      if k' = k then (k', v) :: rest else (k', v') :: recUpsert rest k v

/-- JS `Object.keys` (insertion order; all keys here are non-index keys). -/
def recKeys (m : List (List Char × List Char)) : List (List Char) :=
  m.map (·.1)

/-- Fuel-driven core of JS `String.prototype.split` with a non-empty string
separator: leftmost, non-overlapping occurrences.  Fuel `≥ s.length`
makes the result independent of the fuel. -/
def splitAux (sep : List Char) : Nat → List Char → List (List Char)
  | _, [] => [[]]
  | 0, s => [s]
  | fuel + 1, c :: rest =>
      if sep.isPrefixOf (c :: rest) then
        [] :: splitAux sep fuel ((c :: rest).drop sep.length)
      else
        ((splitAux sep fuel rest).modifyHead (c :: ·))

/-- JS `s.split(sep)` for a string separator (including the `''` case). -/
def splitOnSub (sep s : List Char) : List (List Char) :=
  match sep with
  | [] => s.map (fun c => [c])
  | _ :: _ => splitAux sep s.length s

/-- JS `s.split(sep).join(repl)`: literal (non-pattern) replace-all, as used
by `unRedact`. -/
def jsReplaceAll (sep repl s : List Char) : List Char :=
  List.intercalate repl (splitOnSub sep s)

/-!  A small backtracking regular-expression engine covering exactly the
constructs used by the seven patterns of `patterns.ts`: character classes,
sequencing, alternation (leftmost preference), greedy `?` over arbitrary
sub-expressions, greedy `*`/`+`/`{n,}` over character classes, and the word
boundary `\b`.  The matcher is written in continuation-passing style, which
reproduces the backtracking order of a JS regex engine. -/

/-- Regular expression syntax (capturing groups are irrelevant since the
sources only use `match[0]` and `match.index`). -/
inductive RE where
  | eps : RE
  | cls (p : Char → Bool) : RE
  | seq (r1 r2 : RE) : RE
  | alt (r1 r2 : RE) : RE
  | opt (r : RE) : RE
  | rep (p : Char → Bool) (min : Nat) : RE
  | wb : RE

/-- Word-boundary test of `\b` at position `i` of `text` (out-of-range
positions count as non-word). -/
def atBoundary (text : List Char) (i : Nat) : Bool :=
  let before := match text.get? (i - 1) with
    | some c => if i = 0 then false else isWordChar c
    | none => false
  let here := match text.get? i with
    | some c => isWordChar c
    | none => false
  before ≠ here

/-- Length of the maximal run of `p`-characters starting at `i`. -/
def maxRun (p : Char → Bool) (text : List Char) (i : Nat) : Nat :=
  ((text.drop i).takeWhile p).length

/-- Greedy backtracking over a counted run: try the continuation at
`lo + cnt`, `lo + cnt - 1`, …, `lo` and keep the first success. -/
def tryDown (k : Nat → Option Nat) (lo : Nat) : Nat → Option Nat
  | 0 => k lo
  | cnt + 1 =>
      match k (lo + cnt + 1) with
      | some e => some e
      | none => tryDown k lo cnt

/-- Backtracking matcher: try to match `r` at position `i` of `text`, then
run the continuation `k` on the position after the part `r` consumed; the
result is the overall end position.  Alternation and `?` are
left-biased/greedy exactly as in JS. -/
def reMatch (text : List Char) : RE → Nat → (Nat → Option Nat) → Option Nat
  | .eps, i, k => k i
  | .cls p, i, k =>
      match text.get? i with
      | some c => if p c then k (i + 1) else none
      | none => none
  | .seq r1 r2, i, k => reMatch text r1 i (fun j => reMatch text r2 j k)
  | .alt r1 r2, i, k =>
      match reMatch text r1 i k with
      | some e => some e
      | none => reMatch text r2 i k
  | .opt r, i, k =>
      match reMatch text r i k with
      | some e => some e
      | none => k i
  | .rep p min, i, k =>
      let m := maxRun p text i
      if m < min then none
      else tryDown k (i + min) (m - min)
  | .wb, i, k => if atBoundary text i then k i else none

/-- Leftmost match attempt order of `RegExp.prototype.exec`: try to match at
`i`, `i+1`, … and return `(match.index, end)` of the first success.
`fuel ≥ text.length + 1 - i` makes the result fuel-independent. -/
def execFromAux (r : RE) (text : List Char) : Nat → Nat → Option (Nat × Nat)
  | _, 0 => none
  | i, fuel + 1 =>
      match reMatch text r i some with
      | some e => some (i, e)
      | none =>
          if i < text.length then execFromAux r text (i + 1) fuel else none

/-- `exec` from `lastIndex = i`. -/
def execFrom (r : RE) (text : List Char) (i : Nat) : Option (Nat × Nat) :=
  execFromAux r text i (text.length + 1 - i)

/-- The `while ((match = regex.exec(text)) !== null)` loop of the detector:
all matches, advancing `lastIndex` to the end of each match.  (On a
zero-width match the JS loop would not terminate; none of the seven
patterns can match the empty string, so the guard `e ≤ s` is dead code in
the model and only establishes termination.) -/
def scanAux (r : RE) (text : List Char) : Nat → Nat → List (Nat × Nat)
  | _, 0 => []
  | i, fuel + 1 =>
      match execFrom r text i with
      | none => []
      | some (s, e) =>
          if e ≤ s then [(s, e)]
          else (s, e) :: scanAux r text e fuel

/-- All matches of `r` over `text`, in scan order. -/
def scanMatches (r : RE) (text : List Char) : List (Nat × Nat) :=
  scanAux r text 0 (text.length + 1)

/-!  The pattern catalogue of `src/lib/redaction/patterns.ts`. -/

/-- Sequence of a list of regex atoms. -/
def reSeq : List RE → RE
  | [] => .eps
  | [r] => r
  | r :: rest => .seq r (reSeq rest)

/-- First-preferred alternation chain (JS `a|b|c`). -/
def altChain : List RE → RE
  | [] => .eps
  | [r] => r
  | r :: rest => .alt r (altChain rest)

/-- Uppercase counterpart of a character under the `i` flag (simple case
folding; only letters occurring in the patterns need to be covered). -/
def upperOf (c : Char) : Char :=
  if c = 'é' then 'É' else c.toUpper

/-- One character matched case-insensitively (`i` flag). -/
def ciOf (c : Char) : RE :=
  .cls (fun x => x = c ∨ x = upperOf c)

/-- A literal word matched case-insensitively. -/
def ciLit (s : List Char) : RE :=
  reSeq (s.map ciOf)

/-- `\d` atom. -/
def chD : RE := .cls isDigit09

/-- `\s` atom. -/
def chS : RE := .cls isJsSpace

/-- `\s?` atom. -/
def optS : RE := .opt chS

/-- The character class `[\wæøåÆØÅ]`. -/
def isAddrWord (c : Char) : Bool :=
  isWordChar c ∨ c = 'æ' ∨ c = 'ø' ∨ c = 'å' ∨ c = 'Æ' ∨ c = 'Ø' ∨ c = 'Å'

/-- The character class `[\wæøåÆØÅ\s]`. -/
def isAddrClass (c : Char) : Bool :=
  isAddrWord c ∨ isJsSpace c

/-- `/\b(\d{2}[01]\d[0-3]\d)\s?(\d{5})\b/g` (fødselsnummer). -/
def reFodselsnummer : RE :=
  reSeq [.wb, chD, chD, .cls (fun c => c = '0' ∨ c = '1'), chD,
         .cls (fun c => '0' ≤ c ∧ c ≤ '3'), chD, optS,
         chD, chD, chD, chD, chD, .wb]

/-- `/\b(\d{4})[\.\s]?(\d{2})[\.\s]?(\d{5})\b/g` (Norwegian bank account). -/
def reBankAccount : RE :=
  reSeq [.wb, chD, chD, chD, chD, .opt (.cls (fun c => c = '.' ∨ isJsSpace c)),
         chD, chD, .opt (.cls (fun c => c = '.' ∨ isJsSpace c)),
         chD, chD, chD, chD, chD, .wb]

/-- `/\b(NO)\s?(\d{2})\s?(\d{4})\s?(\d{4})\s?(\d{3})\b/gi` (IBAN). -/
def reIban : RE :=
  reSeq [.wb, ciOf 'n', ciOf 'o', optS, chD, chD, optS, chD, chD, chD, chD,
         optS, chD, chD, chD, chD, optS, chD, chD, chD, .wb]

/-- `/\b(?:\+47\s?)?([2-9]\d{2})\s?(\d{2})\s?(\d{3})\b/g` (phone). -/
def rePhone : RE :=
  reSeq [.wb, .opt (reSeq [.cls (fun c => c = '+'), .cls (fun c => c = '4'),
                           .cls (fun c => c = '7'), optS]),
         .cls (fun c => '2' ≤ c ∧ c ≤ '9'), chD, chD, optS, chD, chD, optS,
         chD, chD, chD, .wb]

/-- `/\b[\w.\-+]+@[\w.\-]+\.\w{2,}\b/gi` (email). -/
def reEmail : RE :=
  reSeq [.wb, .rep (fun c => isWordChar c ∨ c = '.' ∨ c = '-' ∨ c = '+') 1,
         .cls (fun c => c = '@'), .rep (fun c => isWordChar c ∨ c = '.' ∨ c = '-') 1,
         .cls (fun c => c = '.'), .rep isWordChar 2, .wb]

/-- The street-type keyword alternation of the address pattern, in source
order, matched case-insensitively. -/
def addrKeywords : RE :=
  altChain (["gate", "gata", "vei", "veien", "vegen", "plass", "plassen",
             "terrasse", "terrassen", "allé", "alléen", "sving", "svingen",
             "tun", "tunet"].map (fun s => ciLit s.data))

/-- `/\b[\wæøåÆØÅ\s]+(?:gate|…|tunet)\s+\d+[\s,]*(?:\d{4}\s+[\wæøåÆØÅ]+)?\b/gi`
(postal address). -/
def reAddress : RE :=
  reSeq [.wb, .rep isAddrClass 1, addrKeywords, .rep isJsSpace 1,
         .rep isDigit09 1, .rep (fun c => isJsSpace c ∨ c = ',') 0,
         .opt (reSeq [chD, chD, chD, chD, .rep isJsSpace 1, .rep isAddrWord 1]),
         .wb]

/-- `/\b(\d{3})\s?(\d{3})\s?(\d{3})\b/g` (organisation number). -/
def reOrgNumber : RE :=
  reSeq [.wb, chD, chD, chD, optS, chD, chD, chD, optS, chD, chD, chD, .wb]

/-- The `PIIType` keys of `PII_PATTERNS`. -/
inductive PIIType where
  | fodselsnummer | bankAccount | iban | phone | email | address | orgNumber
deriving DecidableEq, Repr

/-- One entry of `PII_PATTERNS`: matching rule, label, mask strategy
(`maskType` is the source's string `'full'` or `'partial'`). -/
structure PatternCfg where
  re : RE
  label : List Char
  maskType : List Char

/-- `Object.entries(PII_PATTERNS)` in insertion order. -/
def PII_PATTERNS : List (PIIType × PatternCfg) :=
  [(.fodselsnummer, ⟨reFodselsnummer, "PERSONAL ID".data, "full".data⟩),
   (.bankAccount, ⟨reBankAccount, "ACCOUNT".data, "partial".data⟩),
   (.iban, ⟨reIban, "IBAN".data, "partial".data⟩),
   (.phone, ⟨rePhone, "PHONE".data, "full".data⟩),
   (.email, ⟨reEmail, "EMAIL".data, "full".data⟩),
   (.address, ⟨reAddress, "ADDRESS".data, "full".data⟩),
   (.orgNumber, ⟨reOrgNumber, "ORG NUMBER".data, "full".data⟩)]

/-!  `detectPII` of `src/lib/redaction/pii-detector.ts`. -/

/-- One finding (`PIIDetection` in the source).  `confirmed` defaults to
`true` and is the only field the UI may toggle. -/
structure PIIDetection where
  type : PIIType
  start : Nat
  «end» : Nat
  original : List Char
  suggestedMask : List Char
  confirmed : Bool
deriving DecidableEq, Repr

/-- The per-call mutable state of `detectPII`: `labelCounters` (a `Record`
label → counter; an absent key reads as `0`, matching the source's
`if (!labelCounters[labelBase]) labelCounters[labelBase] = 0`) and
`seenValues` (normalised original → mask, in insertion order). -/
structure DetectState where
  labelCounters : List (List Char × Nat)
  seenValues : List (List Char × List Char)
deriving Repr

/-- Read `labelCounters[labelBase]` with the absent-or-zero default. -/
def ctrGet (ctrs : List (List Char × Nat)) (label : List Char) : Nat :=
  match ctrs with
  | [] => 0
  | (l, n) :: rest => if l = label then n else ctrGet rest label

/-- `labelCounters[labelBase] = n` (upsert, insertion order kept). -/
def ctrSet (ctrs : List (List Char × Nat)) (label : List Char) (n : Nat) :
    List (List Char × Nat) :=
  match ctrs with
  | [] => [(label, n)]
  | (l, m) :: rest =>
      if l = label then (l, n) :: rest else (l, m) :: ctrSet rest label n

/-- `original.replace(/\s/g, '')` — the normalisation key. -/
def normKey (s : List Char) : List Char :=
  s.filter (fun c => !isJsSpace c)

/-- The bank-account partial mask `████.██.{last five}` built from the
normalised value. -/
def bankMaskOf (norm : List Char) : List Char :=
  '█' :: '█' :: '█' :: '█' :: '.' :: '█' :: '█' :: '.' :: jsLast norm 5

/-- The IBAN partial mask `[IBAN ████{last four digits}]`. -/
def ibanMaskOf (norm : List Char) : List Char :=
  let digits := norm.filter isDigit09
  '[' :: 'I' :: 'B' :: 'A' :: 'N' :: ' ' :: '█' :: '█' :: '█' :: '█' ::
    (jsLast digits 4 ++ [']'])

/-- The full-removal mask `[{labelBase} {letter}]`. -/
def letterMask (label : List Char) (code : Nat) : List Char :=
  '[' :: (label ++ (' ' :: fromCharCode code :: [']']))

/-- Process one raw regex match: look the normalised value up in
`seenValues`, otherwise mint a new mask (incrementing the label's counter),
and record the finding with `confirmed := true`. -/
def mintStep (text : List Char) (st : DetectState)
    (m : PIIType × PatternCfg × Nat × Nat) : DetectState × PIIDetection :=
  let (ty, cfg, s, e) := m
  let original := jsSlice text s e
  let norm := normKey original
  match recLookup st.seenValues norm with
  | some mask =>
      (st, ⟨ty, s, e, original, mask, true⟩)
  | none =>
      let ctr := ctrGet st.labelCounters cfg.label
      let mask :=
        if cfg.maskType = "partial".data ∧ ty = .bankAccount then
          bankMaskOf norm
        else if cfg.maskType = "partial".data ∧ ty = .iban then
          ibanMaskOf norm
        else
          letterMask cfg.label (65 + ctr)
      let st' : DetectState :=
        ⟨ctrSet st.labelCounters cfg.label (ctr + 1),
         st.seenValues ++ [(norm, mask)]⟩
      (st', ⟨ty, s, e, original, mask, true⟩)

/-- Fold `mintStep` over a list of raw matches. -/
def runDetect (text : List Char) (st : DetectState) :
    List (PIIType × PatternCfg × Nat × Nat) →
    DetectState × List PIIDetection
  | [] => (st, [])
  | m :: rest =>
      let (st', d) := mintStep text st m
      let (stF, ds) := runDetect text st' rest
      (stF, d :: ds)

/-- All raw matches of all seven patterns, in the category order of
`Object.entries(PII_PATTERNS)` (each category scanned with a fresh regex,
resetting `lastIndex`). -/
def allMatches (text : List Char) : List (PIIType × PatternCfg × Nat × Nat) :=
  PII_PATTERNS.flatMap
    (fun tc => (scanMatches tc.2.re text).map (fun se => (tc.1, tc.2, se.1, se.2)))

/-- The detector's `detections` array before sorting and overlap removal. -/
def rawDetections (text : List Char) : List PIIDetection :=
  (runDetect text ⟨[], []⟩ (allMatches text)).2

/-- The final `seenValues` table of one `detectPII` call (mint log, in
insertion order). -/
def detectTable (text : List Char) : List (List Char × List Char) :=
  (runDetect text ⟨[], []⟩ (allMatches text)).1.seenValues

/-- The overlap-removal pass: keep a running last-kept finding; on overlap
(`start < lastKept.end`) keep the longer matched text, ties keeping the
earlier one.  The accumulator holds the kept findings in reverse. -/
def resolveAux (acc : List PIIDetection) :
    List PIIDetection → List PIIDetection
  | [] => acc.reverse
  | d :: rest =>
      match acc with
      | [] => resolveAux [d] rest
      | lastKept :: accRest =>
          if d.start < lastKept.«end» then
            if lastKept.original.length < d.original.length then
              resolveAux (d :: accRest) rest
            else
              resolveAux (lastKept :: accRest) rest
          else
            resolveAux (d :: lastKept :: accRest) rest

/-- Overlap removal over the position-sorted findings. -/
def resolveOverlaps (ds : List PIIDetection) : List PIIDetection :=
  resolveAux [] ds

/-- The comparator `(a, b) => a.start - b.start` as a stable-sort preorder. -/
def leStart (a b : PIIDetection) : Bool :=
  a.start ≤ b.start

/-- `detectPII(text)`: scan all categories, sort by position, remove
overlaps. -/
def detectPII (text : List Char) : List PIIDetection :=
  resolveOverlaps (sortBy leStart (rawDetections text))

/-!  The pseudonymizer (`applyRedactions`) and `unRedact`. -/

/-- `RedactionResult`. -/
structure RedactionResult where
  redactedText : List Char
  redactionMap : List (List Char × List Char)
deriving DecidableEq, Repr

/-- The comparator `(a, b) => b.start - a.start` (descending start). -/
def leStartDesc (a b : PIIDetection) : Bool :=
  b.start ≤ a.start

/-- `applyRedactions`: filter to confirmed findings, sort by descending
`start`, splice each mask over its span (back to front, so earlier offsets
stay valid), and record `mask → original` into the map. -/
def applyRedactions (originalText : List Char) (detections : List PIIDetection) :
    RedactionResult :=
  let confirmedDetections :=
    sortBy leStartDesc (detections.filter (·.confirmed))
  confirmedDetections.foldl
    (fun acc d =>
      ⟨jsSlice acc.redactedText 0 d.start ++ d.suggestedMask ++
         jsDrop acc.redactedText d.«end»,
       recUpsert acc.redactionMap d.suggestedMask d.original⟩)
    ⟨originalText, []⟩

/-- The comparator `(a, b) => b.length - a.length` on mask strings. -/
def leLenDesc (a b : List Char) : Bool :=
  b.length ≤ a.length

/-- `unRedact`: sort the map's keys by length descending (stable) and
replace every occurrence of each mask by its original value, longest
first. -/
def unRedact (text : List Char) (redactionMap : List (List Char × List Char)) :
    List Char :=
  let masks := sortBy leLenDesc (recKeys redactionMap)
  masks.foldl
    (fun result mask =>
      jsReplaceAll mask ((recLookup redactionMap mask).getD []) result)
    text

/-!  The decision logic of `POST /api/documents/analyze`
(`src/app/api/documents/analyze/route.ts`), from the document fetch
onwards.  Authentication, rate limiting and request validation happen
before the document is fetched and are independent of the document, so
they are not part of the modelled decision. -/

/-- The fields of the fetched document row that the route reads. -/
structure DocRecord where
  redacted_text : Option (List Char)
  extracted_text : Option (List Char)
  redaction_map : List (List Char × List Char)
  redaction_status : Option (List Char)
  status : Option (List Char)
deriving DecidableEq, Repr

/-- The route's decision: every constructor except `proceed` is a response
returned before the external analysis collaborator is invoked;
`proceed t` is the unique path on which the document is moved to
`analyzing` and `t` is sent to the analysis collaborator. -/
inductive AnalyzeDecision where
  | notFound
  | shieldRejected
  | conflictAnalyzing
  | conflictAnalyzed
  | noText
  | proceed (textForClaude : List Char)
deriving DecidableEq, Repr

/-- Steps 4–8 of the route: fetch result, Privacy-Shield guard
(`!['user_confirmed', 'skipped'].includes(doc.redaction_status ?? '')`),
conflict checks on `doc.status`, text selection
(`doc.redacted_text ?? doc.extracted_text`, rejected when falsy). -/
def analyzeDecision (doc : Option DocRecord) : AnalyzeDecision :=
  match doc with
  | none => .notFound
  | some d =>
      let rs := d.redaction_status.getD []
      if ¬(rs = "user_confirmed".data ∨ rs = "skipped".data) then
        .shieldRejected
      else if d.status = some ("analyzing".data) then .conflictAnalyzing
      else if d.status = some ("analyzed".data) then .conflictAnalyzed
      else
        match d.redacted_text with
        | some t => if t = [] then .noText else .proceed t
        | none =>
            match d.extracted_text with
            | some t => if t = [] then .noText else .proceed t
            | none => .noText

/-!  Steps 9–11 of the same route: parsing the analysis collaborator's
response, un-redaction, the re-parse fallback, and the final document
update.  `JSON.parse` is modelled by an explicit parser for the JSON
grammar (ECMA-404, as `JSON.parse` accepts it). -/

/-- JSON values (numbers keep their lexeme; the route never computes with
them). -/
inductive Json where
  | jnull : Json
  | jbool (b : Bool) : Json
  | jnum (lexeme : List Char) : Json
  | jstr (s : List Char) : Json
  | jarr (xs : List Json) : Json
  | jobj (fields : List (List Char × Json)) : Json
deriving Repr

/-- JSON insignificant whitespace. -/
def jsonWs (c : Char) : Bool :=
  c = ' ' ∨ c = '\t' ∨ c = '\n' ∨ c = '\r'

/-- Hexadecimal digit value. -/
def hexVal (c : Char) : Option Nat :=
  if '0' ≤ c ∧ c ≤ '9' then some (c.toNat - '0'.toNat)
  else if 'a' ≤ c ∧ c ≤ 'f' then some (c.toNat - 'a'.toNat + 10)
  else if 'A' ≤ c ∧ c ≤ 'F' then some (c.toNat - 'A'.toNat + 10)
  else none

/-- Parse the body of a JSON string after the opening quote. -/
def parseJStr : Nat → List Char → Option (List Char × List Char)
  | 0, _ => none
  | _, [] => none
  | fuel + 1, c :: rest =>
      if c = '"' then some ([], rest)
      else if c = '\\' then
        match rest with
        | [] => none
        | e :: rest2 =>
            if e = 'u' then
              match rest2 with
              | h1 :: h2 :: h3 :: h4 :: rest3 =>
                  match hexVal h1, hexVal h2, hexVal h3, hexVal h4 with
                  | some a, some b, some c2, some d =>
                      match parseJStr fuel rest3 with
                      | some (s, r) =>
                          some (Char.ofNat
                            (((a * 16 + b) * 16 + c2) * 16 + d) :: s, r)
                      | none => none
                  | _, _, _, _ => none
              | _ => none
            else
              match
                (if e = '"' then some '"'
                 else if e = '\\' then some '\\'
                 else if e = '/' then some '/'
                 else if e = 'b' then some '\x08'
                 else if e = 'f' then some '\x0c'
                 else if e = 'n' then some '\n'
                 else if e = 'r' then some '\r'
                 else if e = 't' then some '\t'
                 else none) with
              | some ec =>
                  match parseJStr fuel rest2 with
                  | some (s, r) => some (ec :: s, r)
                  | none => none
              | none => none
      else if c.toNat < 0x20 then none
      else
        match parseJStr fuel rest with
        | some (s, r) => some (c :: s, r)
        | none => none

/-- Parse a JSON number (`-?(0|[1-9][0-9]*)(\.[0-9]+)?([eE][+-]?[0-9]+)?`),
returning its lexeme. -/
def parseJNum (s : List Char) : Option (List Char × List Char) :=
  let (neg, s1) := match s with
    | '-' :: r => (['-'], r)
    | _ => (([] : List Char), s)
  match s1 with
  | [] => none
  | c :: _ =>
      if ¬ isDigit09 c then none
      else
        let intPart := s1.takeWhile isDigit09
        let r1 := s1.dropWhile isDigit09
        if 2 ≤ intPart.length ∧ c = '0' then none
        else
          let (fracPart, r2) := match r1 with
            | '.' :: r =>
                let ds := r.takeWhile isDigit09
                if ds = [] then (([] : List Char), r1)
                else ('.' :: ds, r.dropWhile isDigit09)
            | _ => (([] : List Char), r1)
          let (expPart, r3) := match r2 with
            | e :: r =>
                if e = 'e' ∨ e = 'E' then
                  let (sgn, r') := match r with
                    | '+' :: r'' => ((['+'] : List Char), r'')
                    | '-' :: r'' => ((['-'] : List Char), r'')
                    | _ => (([] : List Char), r)
                  let ds := r'.takeWhile isDigit09
                  if ds = [] then (([] : List Char), r2)
                  else (e :: (sgn ++ ds), r'.dropWhile isDigit09)
                else (([] : List Char), r2)
            | _ => (([] : List Char), r2)
          some (neg ++ intPart ++ fracPart ++ expPart, r3)

mutual

/-- Recursive-descent JSON value / members / elements parser (fuel-driven;
fuel `≥` input length suffices). -/
def parseJVal : Nat → List Char → Option (Json × List Char)
  | 0, _ => none
  | fuel + 1, s =>
      match s.dropWhile jsonWs with
      | [] => none
      | c :: rest =>
          if c = 'n' then
            match rest with
            | 'u' :: 'l' :: 'l' :: r => some (.jnull, r)
            | _ => none
          else if c = 't' then
            match rest with
            | 'r' :: 'u' :: 'e' :: r => some (.jbool true, r)
            | _ => none
          else if c = 'f' then
            match rest with
            | 'a' :: 'l' :: 's' :: 'e' :: r => some (.jbool false, r)
            | _ => none
          else if c = '"' then
            match parseJStr (fuel + 1) rest with
            | some (str, r) => some (.jstr str, r)
            | none => none
          else if c = '[' then
            match (rest.dropWhile jsonWs) with
            | ']' :: r => some (.jarr [], r)
            | _ =>
                match parseJElems fuel rest with
                | some (xs, r) => some (.jarr xs, r)
                | none => none
          else if c = '\x7b' then
            match (rest.dropWhile jsonWs) with
            | '\x7d' :: r => some (.jobj [], r)
            | _ =>
                match parseJMembers fuel rest with
                | some (fs, r) => some (.jobj fs, r)
                | none => none
          else
            parseJNum (c :: rest) |>.map (fun nr => (.jnum nr.1, nr.2))

/-- Comma-separated array elements, consuming the closing `]`. -/
def parseJElems : Nat → List Char → Option (List Json × List Char)
  | 0, _ => none
  | fuel + 1, s =>
      match parseJVal fuel s with
      | none => none
      | some (v, r) =>
          match r.dropWhile jsonWs with
          | ',' :: r2 =>
              match parseJElems fuel r2 with
              | some (vs, r3) => some (v :: vs, r3)
              | none => none
          | ']' :: r2 => some ([v], r2)
          | _ => none

/-- Comma-separated object members, consuming the closing brace. -/
def parseJMembers : Nat → List Char → Option (List (List Char × Json) × List Char)
  | 0, _ => none
  | fuel + 1, s =>
      match s.dropWhile jsonWs with
      | '"' :: r =>
          match parseJStr (fuel + 1) r with
          | none => none
          | some (key, r1) =>
              match r1.dropWhile jsonWs with
              | ':' :: r2 =>
                  match parseJVal fuel r2 with
                  | none => none
                  | some (v, r3) =>
                      match r3.dropWhile jsonWs with
                      | ',' :: r4 =>
                          match parseJMembers fuel r4 with
                          | some (fs, r5) => some ((key, v) :: fs, r5)
                          | none => none
                      | '\x7d' :: r4 => some ([(key, v)], r4)
                      | _ => none
              | _ => none
      | _ => none

end

/-- `JSON.parse`: a complete value with only whitespace around it. -/
def jsonParse (s : List Char) : Option Json :=
  match parseJVal (s.length + 1) s with
  | some (v, r) => if r.dropWhile jsonWs = [] then some v else none
  | none => none

/-- ASCII lower-casing for the `i` flag of the fence-stripping regexes. -/
def lowerAscii (c : Char) : Char :=
  if 'A' ≤ c ∧ c ≤ 'Z' then Char.ofNat (c.toNat + 32) else c

/-- `text.replace(/^```json\s*/i, '')`. -/
def stripLeadingFence (s : List Char) : List Char :=
  let fence := "```json".data
  if (s.take 7).map lowerAscii = fence then
    (s.drop 7).dropWhile isJsSpace
  else s

/-- `text.replace(/\s*```$/, '')`. -/
def stripTrailingFence (s : List Char) : List Char :=
  let rev := s.reverse
  if ("```".data).isPrefixOf rev then
    ((rev.drop 3).dropWhile isJsSpace).reverse
  else s

/-- JS `String.prototype.trim` (strips the same `\s` class). -/
def jsTrim (s : List Char) : List Char :=
  ((s.dropWhile isJsSpace).reverse.dropWhile isJsSpace).reverse

/-- The route's response cleaning:
`.replace(/^```json\s*/i, '').replace(/\s*```$/, '').trim()`. -/
def cleanResponse (s : List Char) : List Char :=
  jsTrim (stripTrailingFence (stripLeadingFence s))

/-- What steps 9–11 of the route produce: the HTTP status of the response,
the `status` written to the document row, the audit copy
(`ai_summary_redacted`), and the structured analysis returned to the
caller (`analysisForUser`). -/
structure AnalyzeOutcome where
  httpStatus : Nat
  docStatus : List Char
  aiSummaryRedacted : Option (List Char)
  returnedAnalysis : Option Json
deriving Repr

/-- Steps 9–11 of the route, given the analysis collaborator's raw response
text and the document's `redaction_map`: parse (fence-stripped) JSON —
on failure set the document to `error` and answer 500; otherwise un-redact
the raw output, re-parse it, failing which fall back to the still-masked
`analysis`; store the raw output as audit trail, mark the document
`analyzed`, and return `analysisForUser`. -/
def processClaudeOutput (rawText : List Char)
    (redactionMap : List (List Char × List Char)) : AnalyzeOutcome :=
  match jsonParse (cleanResponse rawText) with
  | none => ⟨500, "error".data, none, none⟩
  | some analysis =>
      let summaryForUser := unRedact rawText redactionMap
      let analysisForUser := (jsonParse (cleanResponse summaryForUser)).getD analysis
      ⟨200, "analyzed".data, some rawText, some analysisForUser⟩

/-!  Proof-layer definitions for the redaction round trip: the redacted
text viewed as alternating context gaps and mask slots. -/

/-- One segment of the redacted text: a context gap (text the redactor left
untouched) or a slot created by splicing a mask over an original span.
`done = true` means the un-redactor has already restored this slot. -/
inductive RSeg where
  | gap (g : List Char) : RSeg
  | slot (mask original : List Char) (done : Bool) : RSeg

/-- Rendered text of a segment list. -/
def rsegText (segs : List RSeg) : List Char :=
  segs.flatMap fun seg =>
    match seg with
    | .gap g => g
    | .slot m o done => if done then o else m

/-- Mark every not-yet-restored slot carrying mask `m` as restored. -/
def markDone (m : List Char) (seg : RSeg) : RSeg :=
  match seg with
  | .slot m' o false => if m' = m then .slot m' o true else seg
  | _ => seg

/-- Force every slot restored (specification device: the fully restored
rendering). -/
def forceDone (seg : RSeg) : RSeg :=
  match seg with
  | .slot m o _ => .slot m o true
  | _ => seg

/-- After a slot, no further slot may occur before a non-empty gap (so two
mask occurrences are never adjacent in the rendered text). -/
def noSlotBeforeGap : List RSeg → Prop
  | [] => True
  | .gap g :: rest => g ≠ [] ∨ noSlotBeforeGap rest
  | .slot _ _ _ :: _ => False

/-- Every slot is followed by a non-empty gap before the next slot. -/
def slotsSeparated : List RSeg → Prop
  | [] => True
  | .gap _ :: rest => slotsSeparated rest
  | .slot _ _ _ :: rest => noSlotBeforeGap rest ∧ slotsSeparated rest

/-- The segment decomposition induced by splicing the (position-sorted,
confirmed) findings `cs` over `T`, starting at offset `p`. -/
def initSegs (T : List Char) : Nat → List PIIDetection → List RSeg
  | p, [] => [.gap (T.drop p)]
  | p, f :: rest =>
      .gap ((T.drop p).take (f.start - p)) ::
      .slot f.suggestedMask f.original false :: initSegs T f.«end» rest

/-!  Specification devices for the mask-minting claims. -/

/-- Recogniser for a full-removal mask of label `L`: a string of the shape
`[L c]` for a single character `c`. -/
def isLetterMaskOf (L m : List Char) : Bool :=
  m.length = L.length + 4 ∧ m.take (L.length + 2) = '[' :: (L ++ [' ']) ∧
    m.drop (L.length + 3) = [']']

/-- The labels of the five full-removal categories of `PII_PATTERNS`. -/
def fullLabels : List (List Char) :=
  ["PERSONAL ID", "PHONE", "EMAIL", "ADDRESS", "ORG NUMBER"].map String.data

/-- Invariants of the detector's per-call state (proof device):
(i) for each full-removal label the letter masks recorded in `seenValues`
are, in insertion order, exactly the letters `A`, `B`, … up to the label's
counter; (iii) each counter is bounded by the table size. -/
def DetectInvPart (st : DetectState) : Prop :=
  (∀ L ∈ fullLabels,
    ((st.seenValues.filter (fun e => isLetterMaskOf L e.2)).map Prod.snd) =
      (List.range (ctrGet st.labelCounters L)).map (fun j => letterMask L (65 + j))) ∧
  (∀ L, ctrGet st.labelCounters L ≤ st.seenValues.length)

/-- `DetectInvPart` together with (ii): a letter-shaped mask determines its
normalised value. -/
def DetectInv (st : DetectState) : Prop :=
  DetectInvPart st ∧
  (∀ k1 m1 k2 m2, (k1, m1) ∈ st.seenValues → (k2, m2) ∈ st.seenValues →
      m1 = m2 → (∃ L ∈ fullLabels, isLetterMaskOf L m1 = true) → k1 = k2)

/-!  Generic lemmas: the stable sort, `Record` lookup, slices. -/

theorem insertLe_perm {α : Type} (le : α → α → Bool) (a : α) :
    ∀ l : List α, (insertLe le a l).Perm (a :: l)
  | [] => List.Perm.refl _
  | b :: l => by
      unfold insertLe
      by_cases h : le a b = true
      · simp [h]
      · simp only [h]
        exact ((insertLe_perm le a l).cons b).trans (List.Perm.swap a b l)

theorem sortBy_perm {α : Type} (le : α → α → Bool) :
    ∀ l : List α, (sortBy le l).Perm l
  | [] => List.Perm.refl _
  | a :: l => by
      unfold sortBy List.foldr
      exact (insertLe_perm le a _).trans ((sortBy_perm le l).cons a)

theorem mem_sortBy {α : Type} {le : α → α → Bool} {l : List α} {x : α} :
    x ∈ sortBy le l ↔ x ∈ l :=
  (sortBy_perm le l).mem_iff

theorem mem_insertLe {α : Type} {le : α → α → Bool} {l : List α} {a x : α} :
    x ∈ insertLe le a l ↔ x = a ∨ x ∈ l := by
  rw [(insertLe_perm le a l).mem_iff, List.mem_cons]

theorem insertLe_pairwise {α : Type} (le : α → α → Bool)
    (htot : ∀ a b : α, le a b = true ∨ le b a = true)
    (htrans : ∀ a b c : α, le a b = true → le b c = true → le a c = true)
    (a : α) (l : List α) (h : l.Pairwise (fun x y => le x y = true)) :
    (insertLe le a l).Pairwise (fun x y => le x y = true) := by
  induction l with
  | nil => exact List.pairwise_singleton _ a
  | cons b l ih =>
      rcases List.pairwise_cons.mp h with ⟨hb, hl⟩
      unfold insertLe
      by_cases hab : le a b = true
      · simp only [hab, if_true]
        refine List.pairwise_cons.mpr ⟨?_, h⟩
        intro x hx
        rcases List.mem_cons.mp hx with rfl | hx
        · exact hab
        · exact htrans a b x hab (hb x hx)
      · simp only [hab, if_false]
        refine List.pairwise_cons.mpr ⟨?_, ih hl⟩
        intro x hx
        rcases mem_insertLe.mp hx with rfl | hx
        · rcases htot x b with h' | h'
          · exact absurd h' hab
          · exact h'
        · exact hb x hx

theorem sortBy_pairwise {α : Type} (le : α → α → Bool)
    (htot : ∀ a b : α, le a b = true ∨ le b a = true)
    (htrans : ∀ a b c : α, le a b = true → le b c = true → le a c = true) :
    ∀ l : List α, (sortBy le l).Pairwise (fun x y => le x y = true)
  | [] => List.Pairwise.nil
  | a :: l => by
      unfold sortBy List.foldr
      exact insertLe_pairwise le htot htrans a _ (sortBy_pairwise le htot htrans l)

theorem insertLe_of_all_false {α : Type} {le : α → α → Bool} {a : α} :
    ∀ {l : List α}, (∀ b ∈ l, le a b = false) → insertLe le a l = l ++ [a]
  | [], _ => rfl
  | b :: l, h => by
      unfold insertLe
      rw [h b (List.mem_cons_self b l)]
      simp only [Bool.false_eq_true, if_false, List.cons_append, List.cons.injEq,
        true_and]
      exact insertLe_of_all_false fun x hx => h x (List.mem_cons_of_mem b hx)

theorem eq_of_perm_of_pairwise_asymm {α : Type} {R : α → α → Prop}
    (hasym : ∀ a b : α, R a b → R b a → False) {l₁ l₂ : List α}
    (hp : l₁.Perm l₂) (h₁ : l₁.Pairwise R) (h₂ : l₂.Pairwise R) : l₁ = l₂ := by
  haveI : IsAntisymm α R := ⟨fun a b hab hba => (hasym a b hab hba).elim⟩
  exact List.eq_of_perm_of_sorted hp h₁ h₂

theorem recLookup_append_some {l l₂ : List (List Char × List Char)}
    {k v : List Char} (h : recLookup l k = some v) :
    recLookup (l ++ l₂) k = some v := by
  induction l with
  | nil => simp [recLookup] at h
  | cons p rest ih =>
      obtain ⟨k', v'⟩ := p
      unfold recLookup at h ⊢
      by_cases hk : k' = k
      · simpa [hk] using h
      · rw [if_neg hk] at h
        rw [List.cons_append]
        simp only [recLookup, if_neg hk]
        exact ih h

theorem recLookup_append_none {l l₂ : List (List Char × List Char)}
    {k : List Char} (h : recLookup l k = none) :
    recLookup (l ++ l₂) k = recLookup l₂ k := by
  induction l with
  | nil => rfl
  | cons p rest ih =>
      obtain ⟨k', v'⟩ := p
      unfold recLookup at h
      by_cases hk : k' = k
      · simp [hk] at h
      · rw [if_neg hk] at h
        rw [List.cons_append]
        simp only [recLookup, if_neg hk]
        exact ih h

theorem recLookup_mem {l : List (List Char × List Char)} {k v : List Char}
    (h : recLookup l k = some v) : (k, v) ∈ l := by
  induction l with
  | nil => simp [recLookup] at h
  | cons p rest ih =>
      unfold recLookup at h
      by_cases hk : p.1 = k
      · rw [if_pos hk] at h
        obtain rfl := Option.some.inj h
        obtain ⟨k', v'⟩ := p
        obtain rfl : k' = k := hk
        exact List.mem_cons_self _ _
      · rw [if_neg hk] at h
        exact List.mem_cons_of_mem p (ih h)

theorem recLookup_of_mem {l : List (List Char × List Char)} {k v : List Char}
    (hnd : (recKeys l).Nodup) (h : (k, v) ∈ l) : recLookup l k = some v := by
  induction l with
  | nil => simp at h
  | cons p rest ih =>
      rcases List.mem_cons.mp h with rfl | hmem
      · simp [recLookup]
      · have hk : p.1 ≠ k := by
          intro hk
          have : k ∈ recKeys rest := by
            simpa [recKeys] using List.mem_map_of_mem Prod.fst hmem
          rw [recKeys, List.map_cons, List.nodup_cons] at hnd
          exact hnd.1 (hk ▸ this)
        unfold recLookup
        rw [if_neg hk]
        exact ih (by
          rw [recKeys, List.map_cons, List.nodup_cons] at hnd
          exact hnd.2) hmem

theorem recLookup_none_iff {l : List (List Char × List Char)} {k : List Char} :
    recLookup l k = none ↔ k ∉ recKeys l := by
  induction l with
  | nil => simp [recLookup, recKeys]
  | cons p rest ih =>
      unfold recLookup
      by_cases hk : p.1 = k
      · simp [hk, recKeys]
      · simp [hk, recKeys, Ne.symm hk, recKeys] at ih ⊢
        exact ih

theorem recLookup_perm {l₁ l₂ : List (List Char × List Char)} {k : List Char}
    (hp : l₁.Perm l₂) (hnd : (recKeys l₁).Nodup) :
    recLookup l₁ k = recLookup l₂ k := by
  have hnd₂ : (recKeys l₂).Nodup := ((hp.map Prod.fst).nodup_iff).mp hnd
  cases h : recLookup l₁ k with
  | some v =>
      exact (recLookup_of_mem hnd₂ (hp.mem_iff.mp (recLookup_mem h))).symm
  | none =>
      refine (recLookup_none_iff.mpr ?_).symm
      intro hmem
      exact recLookup_none_iff.mp h (((hp.map Prod.fst).mem_iff).mpr hmem)

/-!  Lemmas about `splitOnSub` / `jsReplaceAll`. -/

theorem splitAux_fuel {sep : List Char} (hsep : sep ≠ []) :
    ∀ (f₁ : Nat) {f₂ : Nat} {s : List Char}, s.length ≤ f₁ → s.length ≤ f₂ →
      splitAux sep f₁ s = splitAux sep f₂ s := by
  intro f₁
  induction f₁ with
  | zero =>
      intro f₂ s h₁ _
      obtain rfl : s = [] := List.eq_nil_of_length_eq_zero (Nat.le_zero.mp h₁)
      cases f₂ <;> rfl
  | succ f ih =>
      intro f₂ s h₁ h₂
      cases s with
      | nil => cases f₂ <;> rfl
      | cons c rest =>
          cases f₂ with
          | zero => simp at h₂
          | succ g =>
              show splitAux sep (f + 1) (c :: rest) = splitAux sep (g + 1) (c :: rest)
              unfold splitAux
              by_cases hp : sep.isPrefixOf (c :: rest) = true
              · rw [hp]
                simp only [if_true]
                have hsl : 1 ≤ sep.length :=
                  Nat.one_le_iff_ne_zero.mpr (fun h0 =>
                    hsep (List.eq_nil_of_length_eq_zero h0))
                have hd : ((c :: rest).drop sep.length).length ≤ f := by
                  rw [List.length_drop]
                  simp only [List.length_cons] at h₁ ⊢
                  omega
                have hd₂ : ((c :: rest).drop sep.length).length ≤ g := by
                  rw [List.length_drop]
                  simp only [List.length_cons] at h₂ ⊢
                  omega
                rw [ih hd hd₂]
              · rw [Bool.eq_false_iff.mpr hp]
                simp only [Bool.false_eq_true, if_false]
                have hr : rest.length ≤ f := by
                  simp only [List.length_cons] at h₁; omega
                have hr₂ : rest.length ≤ g := by
                  simp only [List.length_cons] at h₂; omega
                rw [ih hr hr₂]

theorem splitOnSub_eq_aux {sep : List Char} (hsep : sep ≠ []) (s : List Char) :
    splitOnSub sep s = splitAux sep s.length s := by
  cases sep with
  | nil => exact absurd rfl hsep
  | cons c sep' => rfl

theorem splitAux_ne_nil {sep : List Char} :
    ∀ (f : Nat) (s : List Char), splitAux sep f s ≠ [] := by
  intro f
  induction f with
  | zero => intro s; cases s <;> simp [splitAux]
  | succ f ih =>
      intro s
      cases s with
      | nil => simp [splitAux]
      | cons c rest =>
          unfold splitAux
          by_cases hp : sep.isPrefixOf (c :: rest) = true
          · simp [hp]
          · rw [Bool.eq_false_iff.mpr hp]
            simp only [Bool.false_eq_true, if_false]
            intro h
            exact ih rest (by
              cases hres : splitAux sep f rest with
              | nil => rfl
              | cons a t => rw [hres] at h; simp [List.modifyHead] at h)

theorem splitOnSub_ne_nil {sep s : List Char} (hsep : sep ≠ []) :
    splitOnSub sep s ≠ [] := by
  rw [splitOnSub_eq_aux hsep]
  exact splitAux_ne_nil _ s

theorem splitOnSub_nil {sep : List Char} (hsep : sep ≠ []) :
    splitOnSub sep [] = [[]] := by
  rw [splitOnSub_eq_aux hsep]; rfl

theorem splitOnSub_append_skip {sep : List Char} (hsep : sep ≠ []) :
    ∀ (z : List Char) {X : List Char},
      (∀ j, j < z.length → sep.isPrefixOf ((z ++ X).drop j) = false) →
      splitOnSub sep (z ++ X) = (splitOnSub sep X).modifyHead (z ++ ·) := by
  intro z
  induction z with
  | nil =>
      intro X _
      simp only [List.nil_append]
      cases h : splitOnSub sep X with
      | nil => rfl
      | cons a t => simp [List.modifyHead]
  | cons c z' ih =>
      intro X h
      rw [List.cons_append, splitOnSub_eq_aux hsep]
      have hlen : (c :: (z' ++ X)).length = (z' ++ X).length + 1 := by simp
      rw [hlen]
      unfold splitAux
      have hp0 : sep.isPrefixOf (c :: (z' ++ X)) = false := by
        have := h 0 (by simp)
        simpa using this
      rw [hp0]
      simp only [Bool.false_eq_true, if_false]
      have hfuel : splitAux sep (z' ++ X).length (z' ++ X) = splitOnSub sep (z' ++ X) :=
        (splitOnSub_eq_aux hsep _).symm
      rw [hfuel, ih (fun j hj => by
        have := h (j + 1) (by simpa using Nat.succ_lt_succ hj)
        simpa using this)]
      rw [List.modifyHead_modifyHead]
      rfl

theorem splitOnSub_sep_head {sep : List Char} (hsep : sep ≠ []) (X : List Char) :
    splitOnSub sep (sep ++ X) = [] :: splitOnSub sep X := by
  obtain ⟨c, sep', rfl⟩ : ∃ c sep', sep = c :: sep' := by
    cases sep with
    | nil => exact absurd rfl hsep
    | cons c sep' => exact ⟨c, sep', rfl⟩
  rw [splitOnSub_eq_aux hsep]
  have hlen : ((c :: sep') ++ X).length = (sep' ++ X).length + 1 := by simp
  rw [hlen]
  show splitAux (c :: sep') ((sep' ++ X).length + 1) (c :: (sep' ++ X)) = _
  unfold splitAux
  have hp : (c :: sep').isPrefixOf (c :: (sep' ++ X)) = true := by
    rw [List.isPrefixOf_iff_prefix]
    exact List.prefix_append (c :: sep') X
  rw [hp]
  simp only [if_true]
  have hdrop : (c :: (sep' ++ X)).drop (c :: sep').length = X := by
    show ((c :: sep') ++ X).drop (c :: sep').length = X
    exact List.drop_left _ _
  rw [hdrop]
  congr 1
  refine (splitAux_fuel hsep _ ?_ ?_).trans (splitOnSub_eq_aux hsep X).symm
  · simp
  · exact le_refl _

theorem splitOnSub_no_occur {sep s : List Char}
    (h : ∀ j, sep.isPrefixOf (s.drop j) = false) : splitOnSub sep s = [s] := by
  rcases eq_or_ne sep [] with rfl | hsep
  · have := h 0
    simp [List.isPrefixOf] at this
  · have := splitOnSub_append_skip hsep s (X := [])
      (fun j hj => by simpa using h j)
    rw [List.append_nil] at this
    rw [this, splitOnSub_nil hsep]
    simp [List.modifyHead]

theorem intercalate_single (r a : List Char) : List.intercalate r [a] = a := by
  simp [List.intercalate]

theorem intercalate_cons₂ (r a : List Char) {ls : List (List Char)}
    (h : ls ≠ []) :
    List.intercalate r (a :: ls) = a ++ r ++ List.intercalate r ls := by
  cases ls with
  | nil => exact absurd rfl h
  | cons b t =>
      show (List.intersperse r (a :: b :: t)).flatten = _
      rw [List.intersperse_cons_cons, List.flatten_cons, List.flatten_cons]
      show a ++ (r ++ (List.intersperse r (b :: t)).flatten) = _
      rw [List.append_assoc]
      rfl

theorem intercalate_modifyHead (r z : List Char) {ls : List (List Char)}
    (h : ls ≠ []) :
    List.intercalate r (ls.modifyHead (z ++ ·)) = z ++ List.intercalate r ls := by
  cases ls with
  | nil => exact absurd rfl h
  | cons a t =>
      show List.intercalate r ((z ++ a) :: t) = z ++ List.intercalate r (a :: t)
      cases t with
      | nil => rw [intercalate_single, intercalate_single]
      | cons b t' =>
          rw [intercalate_cons₂ r (z ++ a) (by simp : b :: t' ≠ []),
            intercalate_cons₂ r a (by simp : b :: t' ≠ [])]
          simp [List.append_assoc]

theorem replaceAll_skip {sep r : List Char} (hsep : sep ≠ []) (z : List Char)
    {X : List Char}
    (h : ∀ j, j < z.length → sep.isPrefixOf ((z ++ X).drop j) = false) :
    jsReplaceAll sep r (z ++ X) = z ++ jsReplaceAll sep r X := by
  unfold jsReplaceAll
  rw [splitOnSub_append_skip hsep z h,
    intercalate_modifyHead r z (splitOnSub_ne_nil hsep)]

theorem replaceAll_head {sep r : List Char} (hsep : sep ≠ []) (X : List Char) :
    jsReplaceAll sep r (sep ++ X) = r ++ jsReplaceAll sep r X := by
  unfold jsReplaceAll
  rw [splitOnSub_sep_head hsep X,
    intercalate_cons₂ r _ (splitOnSub_ne_nil hsep)]
  simp

theorem replaceAll_no_occur {sep r s : List Char}
    (h : ∀ j, sep.isPrefixOf (s.drop j) = false) : jsReplaceAll sep r s = s := by
  unfold jsReplaceAll
  rw [splitOnSub_no_occur h, intercalate_single]

theorem replaceAll_nil {sep r : List Char} (hsep : sep ≠ []) :
    jsReplaceAll sep r [] = [] := by
  unfold jsReplaceAll
  rw [splitOnSub_nil hsep, intercalate_single]

theorem replaceAll_self {sep r : List Char} (hsep : sep ≠ []) :
    jsReplaceAll sep r sep = r := by
  have := replaceAll_head (r := r) hsep []
  rw [List.append_nil] at this
  rw [this, replaceAll_nil hsep, List.append_nil]

theorem prefix_false_of_head_ne {c₀ : Char} {sep' z X : List Char}
    (hz : ∀ c ∈ z, c ≠ c₀) :
    ∀ j, j < z.length → (c₀ :: sep').isPrefixOf ((z ++ X).drop j) = false := by
  intro j hj
  rw [List.drop_append_of_le_length (le_of_lt hj)]
  rw [List.drop_eq_getElem_cons hj]
  refine Bool.eq_false_iff.mpr (fun hp => ?_)
  obtain ⟨t, ht⟩ := List.isPrefixOf_iff_prefix.mp hp
  rw [List.cons_append] at ht
  have : c₀ = z[j] := (List.cons.inj ht).1
  exact hz z[j] (z.getElem_mem hj) this.symm

/-!  Bounds for the regex engine and the scan loop. -/

theorem jsSlice_eq (T : List Char) (a b : Nat) :
    jsSlice T a b = (T.drop a).take (b - a) := by
  unfold jsSlice
  rw [List.drop_take]

theorem jsSlice_length {T : List Char} {a b : Nat} (h1 : a ≤ b)
    (h2 : b ≤ T.length) : (jsSlice T a b).length = b - a := by
  rw [jsSlice_eq, List.length_take, List.length_drop]
  omega

theorem mem_jsSlice {T : List Char} {a b : Nat} {c : Char}
    (h : c ∈ jsSlice T a b) : c ∈ T := by
  rw [jsSlice_eq] at h
  exact List.drop_subset a T (List.take_subset _ _ h)

theorem tryDown_bound {k : Nat → Option Nat} {lo e : Nat} :
    ∀ {cnt : Nat}, tryDown k lo cnt = some e →
      ∃ j, lo ≤ j ∧ j ≤ lo + cnt ∧ k j = some e := by
  intro cnt
  induction cnt with
  | zero => intro h; exact ⟨lo, le_refl _, by omega, h⟩
  | succ n ih =>
      intro h
      unfold tryDown at h
      cases hk : k (lo + n + 1) with
      | some e' =>
          rw [hk] at h
          obtain rfl := Option.some.inj h
          exact ⟨lo + n + 1, by omega, by omega, hk⟩
      | none =>
          rw [hk] at h
          obtain ⟨j, h1, h2, h3⟩ := ih h
          exact ⟨j, h1, by omega, h3⟩

theorem maxRun_le (p : Char → Bool) (text : List Char) (i : Nat) :
    i + maxRun p text i ≤ text.length ∨ i > text.length := by
  rcases le_or_lt i text.length with h | h
  · left
    have := (text.drop i).takeWhile_sublist p |>.length_le
    unfold maxRun
    rw [List.length_drop] at this
    omega
  · right; exact h

theorem reMatch_bound (text : List Char) :
    ∀ (r : RE) {i : Nat} {k : Nat → Option Nat} {e : Nat},
      reMatch text r i k = some e → i ≤ text.length →
      ∃ j, i ≤ j ∧ j ≤ text.length ∧ k j = some e := by
  intro r
  induction r with
  | eps =>
      intro i k e h hi
      exact ⟨i, le_refl _, hi, h⟩
  | cls p =>
      intro i k e h hi
      unfold reMatch at h
      cases hg : text.get? i with
      | none => rw [hg] at h; exact absurd h (by simp)
      | some c =>
          rw [hg] at h
          replace h : (if p c = true then k (i + 1) else none) = some e := h
          have hlt : i < text.length := by
            by_contra hge
            rw [List.get?_eq_none.mpr (by omega)] at hg
            exact Option.noConfusion hg
          by_cases hp : p c = true
          · rw [if_pos hp] at h
            exact ⟨i + 1, by omega, by omega, h⟩
          · rw [if_neg hp] at h
            exact absurd h (by simp)
  | seq r1 r2 ih1 ih2 =>
      intro i k e h hi
      obtain ⟨j1, hj1, hj1', hk1⟩ := ih1 h hi
      obtain ⟨j2, hj2, hj2', hk2⟩ := ih2 hk1 hj1'
      exact ⟨j2, le_trans hj1 hj2, hj2', hk2⟩
  | alt r1 r2 ih1 ih2 =>
      intro i k e h hi
      unfold reMatch at h
      cases h1 : reMatch text r1 i k with
      | some e' =>
          rw [h1] at h
          obtain rfl := Option.some.inj h
          exact ih1 h1 hi
      | none =>
          rw [h1] at h
          exact ih2 h hi
  | opt r ih =>
      intro i k e h hi
      unfold reMatch at h
      cases h1 : reMatch text r i k with
      | some e' =>
          rw [h1] at h
          obtain rfl := Option.some.inj h
          exact ih h1 hi
      | none =>
          rw [h1] at h
          exact ⟨i, le_refl _, hi, h⟩
  | rep p min =>
      intro i k e h hi
      unfold reMatch at h
      by_cases hm : maxRun p text i < min
      · rw [if_pos hm] at h
        exact absurd h (by simp)
      · rw [if_neg hm] at h
        obtain ⟨j, h1, h2, h3⟩ := tryDown_bound h
        rcases maxRun_le p text i with hb | hb
        · exact ⟨j, by omega, by omega, h3⟩
        · omega
  | wb =>
      intro i k e h hi
      unfold reMatch at h
      by_cases hb : atBoundary text i = true
      · rw [if_pos hb] at h
        exact ⟨i, le_refl _, hi, h⟩
      · rw [if_neg hb] at h
        exact absurd h (by simp)

theorem execFromAux_bound {r : RE} {text : List Char} :
    ∀ {fuel i s e : Nat}, execFromAux r text i fuel = some (s, e) →
      i ≤ text.length → i ≤ s ∧ s ≤ e ∧ e ≤ text.length := by
  intro fuel
  induction fuel with
  | zero => intro i s e h _; exact absurd h (by simp [execFromAux])
  | succ f ih =>
      intro i s e h hi
      unfold execFromAux at h
      cases hm : reMatch text r i some with
      | some e' =>
          rw [hm] at h
          obtain ⟨rfl, rfl⟩ : i = s ∧ e' = e := by
            have := Option.some.inj h
            exact ⟨congrArg Prod.fst this, congrArg Prod.snd this⟩
          obtain ⟨j, hj1, hj2, hj3⟩ := reMatch_bound text r hm hi
          obtain rfl := Option.some.inj hj3
          exact ⟨le_refl _, hj1, hj2⟩
      | none =>
          rw [hm] at h
          by_cases hlt : i < text.length
          · rw [if_pos hlt] at h
            obtain ⟨h1, h2, h3⟩ := ih h (by omega)
            exact ⟨by omega, h2, h3⟩
          · rw [if_neg hlt] at h
            exact absurd h (by simp)

theorem execFrom_bound {r : RE} {text : List Char} {i s e : Nat}
    (h : execFrom r text i = some (s, e)) (hi : i ≤ text.length) :
    i ≤ s ∧ s ≤ e ∧ e ≤ text.length :=
  execFromAux_bound h hi

theorem scanAux_bound {r : RE} {text : List Char} :
    ∀ {fuel i : Nat}, i ≤ text.length →
      ∀ se ∈ scanAux r text i fuel, i ≤ se.1 ∧ se.1 ≤ se.2 ∧ se.2 ≤ text.length := by
  intro fuel
  induction fuel with
  | zero => intro i _ se h; exact absurd h (by simp [scanAux])
  | succ f ih =>
      intro i hi se hse
      unfold scanAux at hse
      cases hm : execFrom r text i with
      | none => rw [hm] at hse; exact absurd hse (by simp)
      | some se' =>
          obtain ⟨s, e⟩ := se'
          rw [hm] at hse
          replace hse : se ∈ (if e ≤ s then [(s, e)] else
            (s, e) :: scanAux r text e f) := hse
          obtain ⟨h1, h2, h3⟩ := execFrom_bound hm hi
          by_cases hle : e ≤ s
          · rw [if_pos hle] at hse
            obtain rfl := List.mem_singleton.mp hse
            exact ⟨h1, h2, h3⟩
          · rw [if_neg hle] at hse
            rcases List.mem_cons.mp hse with rfl | hse
            · exact ⟨h1, h2, h3⟩
            · obtain ⟨g1, g2, g3⟩ := ih h3 se hse
              exact ⟨by omega, g2, g3⟩

theorem scanMatches_bound {r : RE} {text : List Char} :
    ∀ se ∈ scanMatches r text, se.1 ≤ se.2 ∧ se.2 ≤ text.length := by
  intro se hse
  obtain ⟨_, h2, h3⟩ := scanAux_bound (Nat.zero_le _) se hse
  exact ⟨h2, h3⟩

theorem scanAux_length {r : RE} {text : List Char} :
    ∀ (fuel i : Nat), (scanAux r text i fuel).length ≤ fuel := by
  intro fuel
  induction fuel with
  | zero => intro i; simp [scanAux]
  | succ f ih =>
      intro i
      unfold scanAux
      cases hm : execFrom r text i with
      | none => simp
      | some se =>
          obtain ⟨s, e⟩ := se
          show (if e ≤ s then [(s, e)] else
            (s, e) :: scanAux r text e f).length ≤ f + 1
          by_cases hle : e ≤ s
          · rw [if_pos hle]; simp
          · rw [if_neg hle]
            simpa using Nat.succ_le_succ (ih e)

theorem scanMatches_length {r : RE} {text : List Char} :
    (scanMatches r text).length ≤ text.length + 1 :=
  scanAux_length _ 0

/-!  Structure of the detector's output. -/

theorem allMatches_bound {text : List Char} :
    ∀ m ∈ allMatches text, m.2.2.1 ≤ m.2.2.2 ∧ m.2.2.2 ≤ text.length := by
  intro m hm
  unfold allMatches at hm
  rw [List.mem_flatMap] at hm
  obtain ⟨tc, _, hm⟩ := hm
  rw [List.mem_map] at hm
  obtain ⟨se, hse, rfl⟩ := hm
  simpa using scanMatches_bound se hse

theorem runDetect_cons (text : List Char) (st : DetectState)
    (m : PIIType × PatternCfg × Nat × Nat)
    (rest : List (PIIType × PatternCfg × Nat × Nat)) :
    runDetect text st (m :: rest) =
      ((runDetect text (mintStep text st m).1 rest).1,
       (mintStep text st m).2 :: (runDetect text (mintStep text st m).1 rest).2) := by
  rcases hms : mintStep text st m with ⟨st', d⟩
  rcases hrd : runDetect text st' rest with ⟨stF, ds⟩
  simp only [runDetect, hms, hrd]

theorem mintStep_fields (text : List Char) (st : DetectState)
    (ty : PIIType) (cfg : PatternCfg) (s e : Nat) :
    ((mintStep text st (ty, cfg, s, e)).2).type = ty ∧
    ((mintStep text st (ty, cfg, s, e)).2).start = s ∧
    ((mintStep text st (ty, cfg, s, e)).2).«end» = e ∧
    ((mintStep text st (ty, cfg, s, e)).2).original = jsSlice text s e ∧
    ((mintStep text st (ty, cfg, s, e)).2).confirmed = true := by
  simp only [mintStep]
  cases hl : recLookup st.seenValues (normKey (jsSlice text s e)) with
  | some mask => simp
  | none => simp

theorem runDetect_mem {text : List Char} :
    ∀ (ms : List (PIIType × PatternCfg × Nat × Nat)) (st : DetectState)
      {d : PIIDetection}, d ∈ (runDetect text st ms).2 →
      ∃ ty cfg s e, (ty, cfg, s, e) ∈ ms ∧ d.type = ty ∧ d.start = s ∧
        d.«end» = e ∧ d.original = jsSlice text s e ∧ d.confirmed = true := by
  intro ms
  induction ms with
  | nil => intro st d h; simp [runDetect] at h
  | cons m rest ih =>
      intro st d h
      rw [runDetect_cons] at h
      rcases List.mem_cons.mp h with rfl | h
      · obtain ⟨ty, cfg, s, e⟩ := m
        obtain ⟨h1, h2, h3, h4, h5⟩ := mintStep_fields text st ty cfg s e
        exact ⟨ty, cfg, s, e, List.mem_cons_self _ _, h1, h2, h3, h4, h5⟩
      · obtain ⟨ty, cfg, s, e, hmem, hrest⟩ := ih (mintStep text st m).1 h
        exact ⟨ty, cfg, s, e, List.mem_cons_of_mem m hmem, hrest⟩

theorem mintStep_seen_extend (text : List Char) (st : DetectState)
    (m : PIIType × PatternCfg × Nat × Nat) :
    ∃ suf, ((mintStep text st m).1).seenValues = st.seenValues ++ suf := by
  obtain ⟨ty, cfg, s, e⟩ := m
  simp only [mintStep]
  cases hl : recLookup st.seenValues (normKey (jsSlice text s e)) with
  | none => exact ⟨_, rfl⟩
  | some mask => exact ⟨[], (List.append_nil _).symm⟩

theorem runDetect_seen_extend {text : List Char} :
    ∀ (ms : List (PIIType × PatternCfg × Nat × Nat)) (st : DetectState),
      ∃ suf, ((runDetect text st ms).1).seenValues = st.seenValues ++ suf := by
  intro ms
  induction ms with
  | nil => intro st; exact ⟨[], (List.append_nil _).symm⟩
  | cons m rest ih =>
      intro st
      rw [runDetect_cons]
      obtain ⟨s1, h1⟩ := mintStep_seen_extend text st m
      obtain ⟨s2, h2⟩ := ih (mintStep text st m).1
      exact ⟨s1 ++ s2, by rw [h2, h1, List.append_assoc]⟩

theorem mintStep_mask_lookup (text : List Char) (st : DetectState)
    (m : PIIType × PatternCfg × Nat × Nat) :
    recLookup ((mintStep text st m).1).seenValues
        (normKey ((mintStep text st m).2).original) =
      some ((mintStep text st m).2).suggestedMask := by
  obtain ⟨ty, cfg, s, e⟩ := m
  simp only [mintStep]
  cases hl : recLookup st.seenValues (normKey (jsSlice text s e)) with
  | some mask => simpa using hl
  | none =>
      simp only
      rw [recLookup_append_none hl]
      simp [recLookup]

theorem runDetect_lookup_final {text : List Char} :
    ∀ (ms : List (PIIType × PatternCfg × Nat × Nat)) (st : DetectState)
      {d : PIIDetection}, d ∈ (runDetect text st ms).2 →
      recLookup ((runDetect text st ms).1).seenValues (normKey d.original) =
        some d.suggestedMask := by
  intro ms
  induction ms with
  | nil => intro st d h; simp [runDetect] at h
  | cons m rest ih =>
      intro st d h
      rw [runDetect_cons] at h ⊢
      rcases List.mem_cons.mp h with rfl | h
      · obtain ⟨suf, hsuf⟩ := runDetect_seen_extend rest (mintStep text st m).1
        show recLookup (runDetect text (mintStep text st m).1 rest).1.seenValues
          (normKey (mintStep text st m).2.original) =
          some (mintStep text st m).2.suggestedMask
        rw [hsuf]
        exact recLookup_append_some (mintStep_mask_lookup text st m)
      · exact ih (mintStep text st m).1 h

theorem rawDetections_lookup {text : List Char} {d : PIIDetection}
    (h : d ∈ rawDetections text) :
    recLookup (detectTable text) (normKey d.original) = some d.suggestedMask :=
  runDetect_lookup_final (allMatches text) ⟨[], []⟩ h

theorem resolveAux_nil (acc : List PIIDetection) :
    resolveAux acc [] = acc.reverse := rfl

theorem resolveAux_cons_nil (d : PIIDetection) (rest : List PIIDetection) :
    resolveAux [] (d :: rest) = resolveAux [d] rest := rfl

theorem resolveAux_cons_cons (lastKept : PIIDetection)
    (accRest : List PIIDetection) (d : PIIDetection)
    (rest : List PIIDetection) :
    resolveAux (lastKept :: accRest) (d :: rest) =
      if d.start < lastKept.«end» then
        (if lastKept.original.length < d.original.length then
          resolveAux (d :: accRest) rest
        else resolveAux (lastKept :: accRest) rest)
      else resolveAux (d :: lastKept :: accRest) rest := rfl

theorem resolveAux_subset :
    ∀ (ds acc : List PIIDetection) {x : PIIDetection},
      x ∈ resolveAux acc ds → x ∈ acc ∨ x ∈ ds := by
  intro ds
  induction ds with
  | nil =>
      intro acc x h
      rw [resolveAux_nil] at h
      exact Or.inl (List.mem_reverse.mp h)
  | cons d rest ih =>
      intro acc x h
      cases acc with
      | nil =>
          rw [resolveAux_cons_nil] at h
          rcases ih [d] h with h' | h'
          · exact Or.inr (List.mem_cons.mpr (Or.inl (List.mem_singleton.mp h')))
          · exact Or.inr (List.mem_cons_of_mem d h')
      | cons lastKept accRest =>
          rw [resolveAux_cons_cons] at h
          by_cases ho : d.start < lastKept.«end»
          · rw [if_pos ho] at h
            by_cases hl : lastKept.original.length < d.original.length
            · rw [if_pos hl] at h
              rcases ih _ h with h' | h'
              · rcases List.mem_cons.mp h' with rfl | h'
                · exact Or.inr (List.mem_cons_self _ _)
                · exact Or.inl (List.mem_cons_of_mem _ h')
              · exact Or.inr (List.mem_cons_of_mem d h')
            · rw [if_neg hl] at h
              rcases ih _ h with h' | h'
              · exact Or.inl h'
              · exact Or.inr (List.mem_cons_of_mem d h')
          · rw [if_neg ho] at h
            rcases ih _ h with h' | h'
            · rcases List.mem_cons.mp h' with rfl | h'
              · exact Or.inr (List.mem_cons_self _ _)
              · exact Or.inl h'
            · exact Or.inr (List.mem_cons_of_mem d h')

theorem mem_rawDetections_of_mem_detectPII {text : List Char} {d : PIIDetection}
    (h : d ∈ detectPII text) : d ∈ rawDetections text := by
  unfold detectPII resolveOverlaps at h
  rcases resolveAux_subset _ _ h with h' | h'
  · simp at h'
  · exact mem_sortBy.mp h'

theorem detectPII_shape {text : List Char} {d : PIIDetection}
    (h : d ∈ detectPII text) :
    d.«end» = d.start + d.original.length ∧
      d.original = jsSlice text d.start d.«end» ∧
      d.start ≤ d.«end» ∧ d.«end» ≤ text.length ∧ d.confirmed = true := by
  have hraw := mem_rawDetections_of_mem_detectPII h
  obtain ⟨ty, cfg, s, e, hmem, ht, hs, he, ho, hc⟩ :=
    runDetect_mem (allMatches text) ⟨[], []⟩ hraw
  obtain ⟨hse, hel⟩ := allMatches_bound _ hmem
  simp only at hse hel
  have hlen : d.original.length = e - s := by
    rw [ho]; exact jsSlice_length hse hel
  refine ⟨by omega, by rw [hs, he]; exact ho, by omega, by omega, hc⟩

/-!  The overlap-resolution chain invariant. -/

theorem resolveAux_chain :
    ∀ (ds acc : List PIIDetection),
      List.Chain' (fun x y => y.«end» ≤ x.start) acc →
      List.Pairwise (fun a b => a.start ≤ b.start) ds →
      (∀ a, acc.head? = some a → ∀ d ∈ ds, a.start ≤ d.start) →
      List.Chain' (fun a b => a.«end» ≤ b.start) (resolveAux acc ds) := by
  intro ds
  induction ds with
  | nil =>
      intro acc hacc _ _
      rw [resolveAux_nil, List.chain'_reverse]
      exact hacc
  | cons d rest ih =>
      intro acc hacc hpw hhead
      have hd : ∀ x ∈ rest, d.start ≤ x.start :=
        (List.pairwise_cons.mp hpw).1
      have hpr : rest.Pairwise (fun a b => a.start ≤ b.start) :=
        (List.pairwise_cons.mp hpw).2
      cases acc with
      | nil =>
          rw [resolveAux_cons_nil]
          refine ih [d] (List.chain'_singleton d) hpr ?_
          intro a ha x hx
          obtain rfl := Option.some.inj ha
          exact hd x hx
      | cons lastKept accRest =>
          rw [resolveAux_cons_cons]
          have hlast : lastKept.start ≤ d.start :=
            hhead lastKept rfl d (List.mem_cons_self d rest)
          have haccR := (List.chain'_cons'.mp hacc).2
          have haccH := (List.chain'_cons'.mp hacc).1
          by_cases ho : d.start < lastKept.«end»
          · rw [if_pos ho]
            by_cases hl : lastKept.original.length < d.original.length
            · rw [if_pos hl]
              refine ih (d :: accRest) ?_ hpr ?_
              · refine List.chain'_cons'.mpr ⟨?_, haccR⟩
                intro y hy
                exact le_trans (haccH y hy) hlast
              · intro a ha x hx
                obtain rfl := Option.some.inj ha
                exact hd x hx
            · rw [if_neg hl]
              refine ih (lastKept :: accRest) hacc hpr ?_
              intro a ha x hx
              obtain rfl := Option.some.inj ha
              exact le_trans hlast (hd x hx)
          · rw [if_neg ho]
            refine ih (d :: lastKept :: accRest) ?_ hpr ?_
            · refine List.chain'_cons'.mpr ⟨?_, hacc⟩
              intro y hy
              obtain rfl := Option.some.inj hy
              omega
            · intro a ha x hx
              obtain rfl := Option.some.inj ha
              exact hd x hx

theorem leStart_total : ∀ a b : PIIDetection,
    leStart a b = true ∨ leStart b a = true := by
  intro a b
  unfold leStart
  rcases Nat.le_total a.start b.start with h | h
  · left; exact decide_eq_true h
  · right; exact decide_eq_true h

theorem leStart_trans : ∀ a b c : PIIDetection,
    leStart a b = true → leStart b c = true → leStart a c = true := by
  intro a b c h1 h2
  unfold leStart at h1 h2 ⊢
  exact decide_eq_true (le_trans (of_decide_eq_true h1) (of_decide_eq_true h2))

theorem detectPII_chain (text : List Char) :
    List.Chain' (fun a b => a.«end» ≤ b.start) (detectPII text) := by
  unfold detectPII resolveOverlaps
  refine resolveAux_chain _ [] List.chain'_nil ?_ (by intro a ha; simp at ha)
  exact (sortBy_pairwise leStart leStart_total leStart_trans
    (rawDetections text)).imp (fun h => of_decide_eq_true h)

/-- C5: the list of findings returned by `detectPII` is sorted ascending by
`start`, and no two returned findings overlap: each finding's `start` is at
least the previous finding's `end`. -/
theorem C5_detectPII_sorted_nonoverlapping (text : List Char) :
    List.Chain' (fun a b => a.start ≤ b.start) (detectPII text) ∧
      List.Chain' (fun a b => a.«end» ≤ b.start) (detectPII text) := by
  refine ⟨?_, detectPII_chain text⟩
  have hse : ∀ x ∈ detectPII text, x.start ≤ x.«end» := by
    intro x hx
    exact (detectPII_shape hx).2.2.1
  have hchain := detectPII_chain text
  revert hse hchain
  generalize detectPII text = l
  intro hse hchain
  induction l with
  | nil => exact List.chain'_nil
  | cons a t ih =>
      obtain ⟨hh, ht⟩ := List.chain'_cons'.mp hchain
      refine List.chain'_cons'.mpr ⟨?_, ih (fun x hx =>
        hse x (List.mem_cons_of_mem a hx)) ht⟩
      intro y hy
      have h1 := hh y hy
      have h2 := hse a (List.mem_cons_self a t)
      omega

/-- C10: every finding returned by `detectPII` records exactly the matched
span of the input: `end = start + original.length` and
`original = text.slice(start, end)`. -/
theorem C10_finding_span_exact (text : List Char) (d : PIIDetection)
    (h : d ∈ detectPII text) :
    d.«end» = d.start + d.original.length ∧
      d.original = jsSlice text d.start d.«end» :=
  ⟨(detectPII_shape h).1, (detectPII_shape h).2.1⟩

/-- Witness for C10 at a concrete input. -/
theorem C10_finding_span_exact_witness :
    (⟨PIIType.email, 0, 6, "a@b.cc".data, "[EMAIL A]".data, true⟩ : PIIDetection)
        ∈ detectPII ("a@b.cc".data) ∧
      ((6 : Nat) = 0 + ("a@b.cc".data).length ∧
        "a@b.cc".data = jsSlice ("a@b.cc".data) 0 6) := by
  refine ⟨by decide, ?_⟩
  exact C10_finding_span_exact ("a@b.cc".data)
    ⟨PIIType.email, 0, 6, "a@b.cc".data, "[EMAIL A]".data, true⟩ (by decide)

/-- C4: within one `detectPII` call, two returned findings whose originals
have the same whitespace-stripped normalisation carry the same mask — the
call produces exactly one mask per normalised value. -/
theorem C4_mask_consistency (text : List Char) {f g : PIIDetection}
    (hf : f ∈ detectPII text) (hg : g ∈ detectPII text)
    (hnorm : normKey f.original = normKey g.original) :
    f.suggestedMask = g.suggestedMask := by
  have h1 := rawDetections_lookup (mem_rawDetections_of_mem_detectPII hf)
  have h2 := rawDetections_lookup (mem_rawDetections_of_mem_detectPII hg)
  rw [hnorm] at h1
  exact Option.some.inj (h1.symm.trans h2)

/-- Witness for C4: a text with the same email twice. -/
theorem C4_mask_consistency_witness :
    (⟨PIIType.email, 0, 6, "a@b.cc".data, "[EMAIL A]".data, true⟩ : PIIDetection)
        ∈ detectPII ("a@b.cc x a@b.cc".data) ∧
      (⟨PIIType.email, 9, 15, "a@b.cc".data, "[EMAIL A]".data, true⟩ : PIIDetection)
        ∈ detectPII ("a@b.cc x a@b.cc".data) ∧
      ("[EMAIL A]".data : List Char) = "[EMAIL A]".data := by
  refine ⟨by decide, by decide, ?_⟩
  exact C4_mask_consistency ("a@b.cc x a@b.cc".data)
    (f := ⟨PIIType.email, 0, 6, "a@b.cc".data, "[EMAIL A]".data, true⟩)
    (g := ⟨PIIType.email, 9, 15, "a@b.cc".data, "[EMAIL A]".data, true⟩)
    (by decide) (by decide) (by decide)

/-- C6: the overlap pass of `detectPII` — on two start-sorted overlapping
findings it keeps exactly the one with the longer matched text, ties
keeping the earlier one. -/
theorem C6_overlap_keeps_longer (a b : PIIDetection)
    (_hsort : a.start ≤ b.start) (hover : b.start < a.«end») :
    resolveOverlaps [a, b] =
      if a.original.length < b.original.length then [b] else [a] := by
  unfold resolveOverlaps
  rw [resolveAux_cons_nil, resolveAux_cons_cons, if_pos hover]
  by_cases hl : a.original.length < b.original.length
  · rw [if_pos hl, if_pos hl, resolveAux_nil]
    rfl
  · rw [if_neg hl, if_neg hl, resolveAux_nil]
    rfl

/-- Witness for C6 at two concrete overlapping findings of different
lengths: only the longer survives. -/
theorem C6_overlap_keeps_longer_witness :
    resolveOverlaps
        [⟨PIIType.orgNumber, 2, 11, "123456789".data, "[ORG NUMBER A]".data, true⟩,
         ⟨PIIType.iban, 4, 19, "NO9386011117947".data, "[IBAN ████7947]".data, true⟩] =
      [⟨PIIType.iban, 4, 19, "NO9386011117947".data, "[IBAN ████7947]".data, true⟩] := by
  have h := C6_overlap_keeps_longer
    ⟨PIIType.orgNumber, 2, 11, "123456789".data, "[ORG NUMBER A]".data, true⟩
    ⟨PIIType.iban, 4, 19, "NO9386011117947".data, "[IBAN ████7947]".data, true⟩
    (by decide) (by decide)
  rw [h]
  decide

/-!  Shapes of minted masks. -/

theorem fromCharCode_inj {a b : Nat} (ha : a < 55296) (hb : b < 55296)
    (h : fromCharCode a = fromCharCode b) : a = b := by
  unfold fromCharCode at h
  rw [Nat.mod_eq_of_lt (lt_trans ha (by norm_num)),
    Nat.mod_eq_of_lt (lt_trans hb (by norm_num))] at h
  have hva : a.isValidChar := Or.inl ha
  have hvb : b.isValidChar := Or.inl hb
  unfold Char.ofNat at h
  rw [dif_pos hva, dif_pos hvb] at h
  unfold Char.ofNatAux at h
  have := congrArg Char.toNat h
  simpa [Char.toNat] using this

theorem letterMask_length (L : List Char) (c : Nat) :
    (letterMask L c).length = L.length + 4 := by
  unfold letterMask
  simp

theorem isLetterMaskOf_letterMask (L : List Char) (c : Nat) :
    isLetterMaskOf L (letterMask L c) = true := by
  have h1 : (letterMask L c).length = L.length + 4 := letterMask_length L c
  have h2 : (letterMask L c).take (L.length + 2) = '[' :: (L ++ [' ']) := by
    unfold letterMask
    rw [show L.length + 2 = (L.length + 1) + 1 by omega, List.take_succ_cons,
      List.take_append 1]
    rfl
  have h3 : (letterMask L c).drop (L.length + 3) = [']'] := by
    unfold letterMask
    rw [show L.length + 3 = (L.length + 2) + 1 by omega, List.drop_succ_cons,
      List.drop_append 2]
    rfl
  simp [isLetterMaskOf, h1, h2, h3]

theorem letterMask_shape_label {L L' : List Char} {c : Nat}
    (h : isLetterMaskOf L (letterMask L' c) = true) : L = L' := by
  simp only [isLetterMaskOf, decide_eq_true_eq] at h
  obtain ⟨h1, h2, _⟩ := h
  have hlen : L'.length = L.length := by
    have h1' := letterMask_length L' c
    omega
  have h2' : (letterMask L' c).take (L.length + 2) = '[' :: (L' ++ [' ']) := by
    unfold letterMask
    rw [show L.length + 2 = (L.length + 1) + 1 by omega, List.take_succ_cons]
    rw [show L.length + 1 = L'.length + 1 by omega, List.take_append 1]
    rfl
  rw [h2'] at h2
  have := List.append_cancel_right (List.cons.inj h2).2
  exact this.symm

theorem letterMask_code_inj {L : List Char} {c1 c2 : Nat}
    (h : letterMask L c1 = letterMask L c2) (h1 : c1 < 55296)
    (h2 : c2 < 55296) : c1 = c2 := by
  unfold letterMask at h
  have h3 := List.append_cancel_left (List.cons.inj h).2
  have h4 := (List.cons.inj ((List.cons.inj h3).2)).1
  exact fromCharCode_inj h1 h2 h4

theorem bankMask_not_letter (L x : List Char) :
    isLetterMaskOf L (bankMaskOf x) = false := by
  refine Bool.eq_false_iff.mpr (fun h => ?_)
  simp only [isLetterMaskOf, decide_eq_true_eq] at h
  obtain ⟨_, h2, _⟩ := h
  unfold bankMaskOf at h2
  rw [show L.length + 2 = (L.length + 1) + 1 by omega, List.take_succ_cons] at h2
  exact absurd (List.cons.inj h2).1 (by decide)

theorem ibanMask_not_letter {L : List Char} (hL : L ∈ fullLabels)
    (x : List Char) : isLetterMaskOf L (ibanMaskOf x) = false := by
  simp only [fullLabels, List.mem_map, List.mem_cons, List.mem_singleton] at hL
  obtain ⟨s, hs, rfl⟩ := hL
  refine Bool.eq_false_iff.mpr (fun h => ?_)
  simp only [isLetterMaskOf, decide_eq_true_eq] at h
  obtain ⟨_, h2, _⟩ := h
  unfold ibanMaskOf at h2
  rcases hs with rfl | rfl | rfl | rfl | rfl | hs
  · simp at h2
  · simp at h2
  · simp at h2
  · simp at h2
  · simp at h2
  · simp at hs

theorem ctrGet_ctrSet (ctrs : List (List Char × Nat)) (L L' : List Char)
    (n : Nat) :
    ctrGet (ctrSet ctrs L n) L' = if L = L' then n else ctrGet ctrs L' := by
  induction ctrs with
  | nil =>
      unfold ctrSet ctrGet
      by_cases h : L = L'
      · simp [h]
      · simp [h, ctrGet]
  | cons p rest ih =>
      obtain ⟨l, m⟩ := p
      by_cases hl : l = L
      · simp only [ctrSet, if_pos hl]
        subst hl
        by_cases hl' : l = L'
        · simp only [ctrGet, if_pos hl']
        · simp only [ctrGet, if_neg hl']
      · simp only [ctrSet, if_neg hl]
        by_cases hl' : l = L'
        · have hLL' : L ≠ L' := fun hc => hl (by rw [hl', hc])
          simp only [ctrGet, if_pos hl', if_neg hLL']
        · simp only [ctrGet, if_neg hl', ih]

theorem mask_mem_range {st : DetectState} (hinv : DetectInvPart st)
    {L : List Char} (hL : L ∈ fullLabels) {k m : List Char}
    (hmem : (k, m) ∈ st.seenValues) (hshape : isLetterMaskOf L m = true) :
    ∃ j, j < ctrGet st.labelCounters L ∧ m = letterMask L (65 + j) := by
  have hmm : m ∈ (st.seenValues.filter (fun e => isLetterMaskOf L e.2)).map
      Prod.snd :=
    List.mem_map_of_mem Prod.snd (List.mem_filter.mpr ⟨hmem, hshape⟩)
  rw [hinv.1 L hL] at hmm
  rw [List.mem_map] at hmm
  obtain ⟨j, hj, rfl⟩ := hmm
  exact ⟨j, List.mem_range.mp hj, rfl⟩

/-!  Preservation of the detector-state invariants over one mint. -/

theorem letter_mint_part {st : DetectState} {L norm : List Char}
    (hL : L ∈ fullLabels) (hinv : DetectInvPart st) :
    DetectInvPart
      ⟨ctrSet st.labelCounters L (ctrGet st.labelCounters L + 1),
       st.seenValues ++ [(norm, letterMask L (65 + ctrGet st.labelCounters L))]⟩ := by
  obtain ⟨hi, hiii⟩ := hinv
  constructor
  · intro L'' hL''
    simp only [List.filter_append, List.map_append, ctrGet_ctrSet]
    rcases eq_or_ne L L'' with rfl | hne
    · rw [if_pos rfl]
      have hpass : List.filter (fun e => isLetterMaskOf L e.2)
          [(norm, letterMask L (65 + ctrGet st.labelCounters L))] =
          [(norm, letterMask L (65 + ctrGet st.labelCounters L))] := by
        simp [List.filter, isLetterMaskOf_letterMask]
      rw [hpass, hi L hL, List.range_succ, List.map_append]
      rfl
    · rw [if_neg hne]
      have hfail : List.filter (fun e => isLetterMaskOf L'' e.2)
          [(norm, letterMask L (65 + ctrGet st.labelCounters L))] = [] := by
        have : isLetterMaskOf L'' (letterMask L (65 + ctrGet st.labelCounters L)) = false := by
          refine Bool.eq_false_iff.mpr (fun hc => ?_)
          exact hne (letterMask_shape_label hc).symm
        simp [List.filter, this]
      rw [hfail, hi L'' hL'']
      simp
  · intro L''
    rw [ctrGet_ctrSet]
    simp only [List.length_append, List.length_singleton]
    rcases eq_or_ne L L'' with rfl | hne
    · rw [if_pos rfl]
      have := hiii L
      omega
    · rw [if_neg hne]
      have := hiii L''
      omega

theorem letter_mint_ii {st : DetectState} {L norm : List Char}
    (hL : L ∈ fullLabels) (hbound : st.seenValues.length ≤ 54999)
    (hinv : DetectInv st) :
    ∀ k1 m1 k2 m2,
      (k1, m1) ∈ st.seenValues ++
        [(norm, letterMask L (65 + ctrGet st.labelCounters L))] →
      (k2, m2) ∈ st.seenValues ++
        [(norm, letterMask L (65 + ctrGet st.labelCounters L))] →
      m1 = m2 → (∃ L' ∈ fullLabels, isLetterMaskOf L' m1 = true) → k1 = k2 := by
  obtain ⟨⟨hi, hiii⟩, hii⟩ := hinv
  have hctr : ctrGet st.labelCounters L ≤ 54999 :=
    le_trans (hiii L) hbound
  have hfresh : ∀ k m, (k, m) ∈ st.seenValues →
      m = letterMask L (65 + ctrGet st.labelCounters L) → False := by
    intro k m hmem hm
    have hshape : isLetterMaskOf L m = true := by
      rw [hm]; exact isLetterMaskOf_letterMask L _
    obtain ⟨j, hj, hjm⟩ := mask_mem_range ⟨hi, hiii⟩ hL hmem hshape
    rw [hm] at hjm
    have := letterMask_code_inj hjm (by omega) (by omega)
    omega
  intro k1 m1 k2 m2 h1 h2 heq _
  rcases List.mem_append.mp h1 with h1' | h1' <;>
    rcases List.mem_append.mp h2 with h2' | h2'
  · exact hii k1 m1 k2 m2 h1' h2' heq (by assumption)
  · have hm2 : m2 = letterMask L (65 + ctrGet st.labelCounters L) :=
      congrArg Prod.snd (List.mem_singleton.mp h2')
    exact (hfresh k1 m1 h1' (heq.trans hm2)).elim
  · have hm1 : m1 = letterMask L (65 + ctrGet st.labelCounters L) :=
      congrArg Prod.snd (List.mem_singleton.mp h1')
    exact (hfresh k2 m2 h2' (heq.symm.trans hm1)).elim
  · have e1 := List.mem_singleton.mp h1'
    have e2 := List.mem_singleton.mp h2'
    exact (congrArg Prod.fst e1).trans (congrArg Prod.fst e2).symm

theorem partial_mint_part {st : DetectState} {Lp norm mask : List Char}
    (hnf : ∀ L ∈ fullLabels, L ≠ Lp)
    (hnoletter : ∀ L ∈ fullLabels, isLetterMaskOf L mask = false)
    (hinv : DetectInvPart st) :
    DetectInvPart
      ⟨ctrSet st.labelCounters Lp (ctrGet st.labelCounters Lp + 1),
       st.seenValues ++ [(norm, mask)]⟩ := by
  obtain ⟨hi, hiii⟩ := hinv
  constructor
  · intro L'' hL''
    simp only [List.filter_append, List.map_append, ctrGet_ctrSet]
    rw [if_neg (fun hc => hnf L'' hL'' hc.symm)]
    have hfail : List.filter (fun e => isLetterMaskOf L'' e.2) [(norm, mask)] = [] := by
      simp [List.filter, hnoletter L'' hL'']
    rw [hfail, hi L'' hL'']
    simp
  · intro L''
    rw [ctrGet_ctrSet]
    simp only [List.length_append, List.length_singleton]
    rcases eq_or_ne Lp L'' with rfl | hne
    · rw [if_pos rfl]
      have := hiii Lp
      omega
    · rw [if_neg hne]
      have := hiii L''
      omega

theorem partial_mint_ii {st : DetectState} {norm mask : List Char}
    (hnoletter : ∀ L ∈ fullLabels, isLetterMaskOf L mask = false)
    (hii : ∀ k1 m1 k2 m2, (k1, m1) ∈ st.seenValues →
      (k2, m2) ∈ st.seenValues → m1 = m2 →
      (∃ L' ∈ fullLabels, isLetterMaskOf L' m1 = true) → k1 = k2) :
    ∀ k1 m1 k2 m2,
      (k1, m1) ∈ st.seenValues ++ [(norm, mask)] →
      (k2, m2) ∈ st.seenValues ++ [(norm, mask)] →
      m1 = m2 → (∃ L' ∈ fullLabels, isLetterMaskOf L' m1 = true) → k1 = k2 := by
  intro k1 m1 k2 m2 h1 h2 heq hex
  rcases List.mem_append.mp h1 with h1' | h1' <;>
    rcases List.mem_append.mp h2 with h2' | h2'
  · exact hii k1 m1 k2 m2 h1' h2' heq hex
  · obtain ⟨L', hL', hsh⟩ := hex
    have e2 := List.mem_singleton.mp h2'
    have hm2 : m2 = mask := congrArg Prod.snd e2
    rw [heq, hm2, hnoletter L' hL'] at hsh
    exact absurd hsh (by simp)
  · obtain ⟨L', hL', hsh⟩ := hex
    have e1 := List.mem_singleton.mp h1'
    have hm1 : m1 = mask := congrArg Prod.snd e1
    rw [hm1, hnoletter L' hL'] at hsh
    exact absurd hsh (by simp)
  · have e1 := List.mem_singleton.mp h1'
    have e2 := List.mem_singleton.mp h2'
    exact (congrArg Prod.fst e1).trans (congrArg Prod.fst e2).symm

theorem mintStep_len (text : List Char) (st : DetectState)
    (m : PIIType × PatternCfg × Nat × Nat) :
    (mintStep text st m).1.seenValues.length ≤ st.seenValues.length + 1 := by
  obtain ⟨ty, cfg, s, e⟩ := m
  simp only [mintStep]
  cases hl : recLookup st.seenValues (normKey (jsSlice text s e)) with
  | some mask => exact Nat.le_succ _
  | none => simp

theorem mintStep_part {text : List Char} {st : DetectState}
    {m : PIIType × PatternCfg × Nat × Nat}
    (hm : (m.1, m.2.1) ∈ PII_PATTERNS) (hinv : DetectInvPart st) :
    DetectInvPart (mintStep text st m).1 := by
  obtain ⟨ty, cfg, s, e⟩ := m
  simp only at hm
  simp only [mintStep]
  cases hl : recLookup st.seenValues (normKey (jsSlice text s e)) with
  | some mask => exact hinv
  | none =>
      simp only [PII_PATTERNS, List.mem_cons, List.mem_singleton,
        List.not_mem_nil, or_false] at hm
      rcases hm with h | h | h | h | h | h | h <;>
        (injection h with h1 h2; subst h1; subst h2)
      · rw [if_neg (by decide), if_neg (by decide)]
        exact letter_mint_part (by decide) hinv
      · rw [if_pos (by decide)]
        exact partial_mint_part (by decide)
          (fun L _ => bankMask_not_letter L _) hinv
      · rw [if_neg (by decide), if_pos (by decide)]
        exact partial_mint_part (by decide)
          (fun L hL => ibanMask_not_letter hL _) hinv
      · rw [if_neg (by decide), if_neg (by decide)]
        exact letter_mint_part (by decide) hinv
      · rw [if_neg (by decide), if_neg (by decide)]
        exact letter_mint_part (by decide) hinv
      · rw [if_neg (by decide), if_neg (by decide)]
        exact letter_mint_part (by decide) hinv
      · rw [if_neg (by decide), if_neg (by decide)]
        exact letter_mint_part (by decide) hinv

theorem mintStep_full {text : List Char} {st : DetectState}
    {m : PIIType × PatternCfg × Nat × Nat}
    (hm : (m.1, m.2.1) ∈ PII_PATTERNS)
    (hbound : st.seenValues.length ≤ 54999) (hinv : DetectInv st) :
    DetectInv (mintStep text st m).1 := by
  refine ⟨mintStep_part hm hinv.1, ?_⟩
  obtain ⟨ty, cfg, s, e⟩ := m
  simp only at hm
  simp only [mintStep]
  cases hl : recLookup st.seenValues (normKey (jsSlice text s e)) with
  | some mask => exact hinv.2
  | none =>
      simp only [PII_PATTERNS, List.mem_cons, List.mem_singleton,
        List.not_mem_nil, or_false] at hm
      rcases hm with h | h | h | h | h | h | h <;>
        (injection h with h1 h2; subst h1; subst h2)
      · rw [if_neg (by decide), if_neg (by decide)]
        exact letter_mint_ii (by decide) hbound hinv
      · rw [if_pos (by decide)]
        exact partial_mint_ii (fun L _ => bankMask_not_letter L _) hinv.2
      · rw [if_neg (by decide), if_pos (by decide)]
        exact partial_mint_ii (fun L hL => ibanMask_not_letter hL _) hinv.2
      · rw [if_neg (by decide), if_neg (by decide)]
        exact letter_mint_ii (by decide) hbound hinv
      · rw [if_neg (by decide), if_neg (by decide)]
        exact letter_mint_ii (by decide) hbound hinv
      · rw [if_neg (by decide), if_neg (by decide)]
        exact letter_mint_ii (by decide) hbound hinv
      · rw [if_neg (by decide), if_neg (by decide)]
        exact letter_mint_ii (by decide) hbound hinv

theorem runDetect_len {text : List Char} :
    ∀ (ms : List (PIIType × PatternCfg × Nat × Nat)) (st : DetectState),
      (runDetect text st ms).1.seenValues.length ≤
        st.seenValues.length + ms.length := by
  intro ms
  induction ms with
  | nil => intro st; simp [runDetect]
  | cons m rest ih =>
      intro st
      rw [runDetect_cons]
      have h1 := mintStep_len text st m
      have h2 := ih (mintStep text st m).1
      simp only [List.length_cons]
      omega

theorem runDetect_part {text : List Char} :
    ∀ (ms : List (PIIType × PatternCfg × Nat × Nat)) (st : DetectState),
      (∀ m ∈ ms, (m.1, m.2.1) ∈ PII_PATTERNS) → DetectInvPart st →
      DetectInvPart (runDetect text st ms).1 := by
  intro ms
  induction ms with
  | nil => intro st _ h; exact h
  | cons m rest ih =>
      intro st hms hinv
      rw [runDetect_cons]
      exact ih _ (fun x hx => hms x (List.mem_cons_of_mem m hx))
        (mintStep_part (hms m (List.mem_cons_self m rest)) hinv)

theorem runDetect_full {text : List Char} :
    ∀ (ms : List (PIIType × PatternCfg × Nat × Nat)) (st : DetectState),
      (∀ m ∈ ms, (m.1, m.2.1) ∈ PII_PATTERNS) →
      st.seenValues.length + ms.length ≤ 55000 → DetectInv st →
      DetectInv (runDetect text st ms).1 := by
  intro ms
  induction ms with
  | nil => intro st _ _ h; exact h
  | cons m rest ih =>
      intro st hms hbound hinv
      rw [runDetect_cons]
      have h1 := mintStep_len text st m
      simp only [List.length_cons] at hbound
      refine ih _ (fun x hx => hms x (List.mem_cons_of_mem m hx)) (by omega) ?_
      exact mintStep_full (hms m (List.mem_cons_self m rest)) (by omega) hinv

theorem allMatches_cfg {text : List Char} :
    ∀ m ∈ allMatches text, (m.1, m.2.1) ∈ PII_PATTERNS := by
  intro m hm
  unfold allMatches at hm
  rw [List.mem_flatMap] at hm
  obtain ⟨tc, htc, hm⟩ := hm
  rw [List.mem_map] at hm
  obtain ⟨se, _, rfl⟩ := hm
  simpa [Prod.mk.eta] using htc

theorem allMatches_length_le (text : List Char) :
    (allMatches text).length ≤ 7 * (text.length + 1) := by
  have h1 := @scanMatches_length reFodselsnummer text
  have h2 := @scanMatches_length reBankAccount text
  have h3 := @scanMatches_length reIban text
  have h4 := @scanMatches_length rePhone text
  have h5 := @scanMatches_length reEmail text
  have h6 := @scanMatches_length reAddress text
  have h7 := @scanMatches_length reOrgNumber text
  simp only [allMatches, PII_PATTERNS, List.flatMap_cons, List.flatMap_nil,
    List.length_append, List.length_map, List.length_nil]
  omega

theorem detectInvPart_init : DetectInvPart ⟨[], []⟩ := by
  constructor
  · intro L _
    simp [ctrGet]
  · intro L
    simp [ctrGet]

theorem detectInv_init : DetectInv ⟨[], []⟩ := by
  refine ⟨detectInvPart_init, ?_⟩
  intro k1 m1 k2 m2 h1 _ _ _
  simp at h1

theorem detect_final_part (text : List Char) :
    DetectInvPart (runDetect text ⟨[], []⟩ (allMatches text)).1 :=
  runDetect_part _ _ allMatches_cfg detectInvPart_init

theorem detect_final_full (text : List Char) (hlen : text.length ≤ 7000) :
    DetectInv (runDetect text ⟨[], []⟩ (allMatches text)).1 := by
  refine runDetect_full _ _ allMatches_cfg ?_ detectInv_init
  have := allMatches_length_le text
  simp only [List.length_nil]
  omega

/-- C3 (amended): a mask is only ever newly minted for a normalised value
not seen before in that call, and for full-removal (letter-shaped) masks
the converse holds as well: two findings of one `detectPII` call that carry
the same letter-shaped mask `[LABEL X]` carry the same normalised original
value.  (Partial-reveal masks do not determine the value — see the
counterexample — so `applyRedactions` can overwrite a map entry; the
technical bound on the text length keeps the letter codes injective.) -/
theorem C3_letter_mask_determines_value (text : List Char)
    (hlen : text.length ≤ 7000) {f g : PIIDetection}
    (hf : f ∈ detectPII text) (hg : g ∈ detectPII text)
    (hmask : f.suggestedMask = g.suggestedMask)
    (hshape : ∃ L ∈ fullLabels, isLetterMaskOf L f.suggestedMask = true) :
    normKey f.original = normKey g.original := by
  have h1 := rawDetections_lookup (mem_rawDetections_of_mem_detectPII hf)
  have h2 := rawDetections_lookup (mem_rawDetections_of_mem_detectPII hg)
  have hm1 := recLookup_mem h1
  have hm2 := recLookup_mem h2
  have hinv := detect_final_full text hlen
  exact hinv.2 _ _ _ _ hm1 hm2 hmask hshape

/-- Witness for C3 (amended): two occurrences of the same email share the
letter mask `[EMAIL A]`, and the theorem yields equality of their
normalised values. -/
theorem C3_letter_mask_determines_value_witness :
    ("a@b.cc x a@b.cc".data).length ≤ 7000 ∧
      normKey ("a@b.cc".data) = normKey ("a@b.cc".data) := by
  refine ⟨by decide, ?_⟩
  exact C3_letter_mask_determines_value ("a@b.cc x a@b.cc".data) (by decide)
    (f := ⟨PIIType.email, 0, 6, "a@b.cc".data, "[EMAIL A]".data, true⟩)
    (g := ⟨PIIType.email, 9, 15, "a@b.cc".data, "[EMAIL A]".data, true⟩)
    (by decide) (by decide) (by decide)
    ⟨"EMAIL".data, by decide, by decide⟩

set_option maxRecDepth 100000 in
/-- C3 counterexample: in one `detectPII` call, two different bank-account
values whose last five digits agree receive the **same** partial mask
`████.██.78901`, so two findings with the same mask carry different
originals, and `applyRedactions` overwrites the map entry for that mask
with a different original (the map ends up holding only the first
account's value). -/
theorem C3_counterexample :
    (detectPII ("1234.56.78901 9999.88.78901".data)).map
        (fun d => (d.suggestedMask, d.original)) =
      [("████.██.78901".data, "1234.56.78901".data),
       ("████.██.78901".data, "9999.88.78901".data)] ∧
    (applyRedactions ("1234.56.78901 9999.88.78901".data)
        (detectPII ("1234.56.78901 9999.88.78901".data))).redactionMap =
      [("████.██.78901".data, "1234.56.78901".data)] := by
  constructor
  · decide
  · decide

/-- C7 (amended): within one `detectPII` call, for each full-removal label
the letter masks recorded in the per-call table are, in insertion (mint)
order, exactly the letters `A`, `B`, `C`, …: the k-th letter-mask minted
for that label carries the k-th letter; and every raw finding's mask is
the table entry of its normalised value.  (In the *returned* findings,
overlap removal may drop the finding that minted a letter, so the k-th
distinct value of a category in the returned list can carry a later
letter — see the counterexample.) -/
theorem C7_letters_follow_alphabet (text : List Char) {L : List Char}
    (hL : L ∈ fullLabels) :
    (((detectTable text).filter (fun e => isLetterMaskOf L e.2)).map Prod.snd =
      (List.range
        (((detectTable text).filter (fun e => isLetterMaskOf L e.2)).length)).map
        (fun j => letterMask L (65 + j))) ∧
    ∀ d ∈ rawDetections text,
      recLookup (detectTable text) (normKey d.original) = some d.suggestedMask := by
  have hdt : detectTable text =
      (runDetect text ⟨[], []⟩ (allMatches text)).1.seenValues := rfl
  have hinv := detect_final_part text
  have hi := hinv.1 L hL
  constructor
  · rw [hdt]
    have hlen : (((runDetect text ⟨[], []⟩ (allMatches text)).1.seenValues.filter
        (fun e => isLetterMaskOf L e.2)).length) =
        ctrGet (runDetect text ⟨[], []⟩ (allMatches text)).1.labelCounters L := by
      have := congrArg List.length hi
      simpa using this
    rw [hlen]
    exact hi
  · intro d hd
    exact rawDetections_lookup hd

/-- Witness for C7 at a concrete input: the email label is a full-removal
label, and the table of `detectPII "a@b.cc"` lists its letter masks in
alphabet order. -/
theorem C7_letters_follow_alphabet_witness :
    ("EMAIL".data ∈ fullLabels) ∧
      (((detectTable ("a@b.cc".data)).filter
          (fun e => isLetterMaskOf ("EMAIL".data) e.2)).map Prod.snd =
        (List.range
          (((detectTable ("a@b.cc".data)).filter
            (fun e => isLetterMaskOf ("EMAIL".data) e.2)).length)).map
          (fun j => letterMask ("EMAIL".data) (65 + j))) := by
  refine ⟨by decide, ?_⟩
  exact (C7_letters_follow_alphabet ("a@b.cc".data) (by decide)).1

set_option maxRecDepth 100000 in
/-- C7 counterexample: in
`"Storgata 235 56 789 og 236 56 789"` the first phone value is minted
`[PHONE A]` but its finding is discarded by overlap resolution (it overlaps
the longer address match), so the first distinct phone value appearing in
the *returned* findings carries `[PHONE B]`, not the first letter. -/
theorem C7_counterexample :
    (detectPII ("Storgata 235 56 789 og 236 56 789".data)).map
        (fun d => (d.type, d.suggestedMask)) =
      [(PIIType.address, "[ADDRESS A]".data),
       (PIIType.phone, "[PHONE B]".data)] := by
  decide

/-!  Order independence of `unRedact` (C8). -/

theorem leLenDesc_total : ∀ a b : List Char,
    leLenDesc a b = true ∨ leLenDesc b a = true := by
  intro a b
  unfold leLenDesc
  rcases Nat.le_total b.length a.length with h | h
  · left; exact decide_eq_true h
  · right; exact decide_eq_true h

theorem leLenDesc_trans : ∀ a b c : List Char,
    leLenDesc a b = true → leLenDesc b c = true → leLenDesc a c = true := by
  intro a b c h1 h2
  unfold leLenDesc at h1 h2 ⊢
  exact decide_eq_true (le_trans (of_decide_eq_true h2) (of_decide_eq_true h1))

/-- C8 counterexample: with two masks of equal length the result of
`unRedact` **does** depend on the map's insertion order — the map's
bindings are the same (a permutation), yet the results differ — so the
claim's unconditional order independence fails. -/
theorem C8_counterexample :
    ([("ab".data, "Q".data), ("ba".data, "R".data)] : List (List Char × List Char)).Perm
        [("ba".data, "R".data), ("ab".data, "Q".data)] ∧
      unRedact ("aba".data) [("ab".data, "Q".data), ("ba".data, "R".data)] = "Qa".data ∧
      unRedact ("aba".data) [("ba".data, "R".data), ("ab".data, "Q".data)] = "aR".data := by
  refine ⟨by decide, by decide, by decide⟩

/-!  The Privacy-Shield gate of the analyze route (C1) and its
response-processing tail (C9). -/

/-- C1: the analyze route rejects any fetched document whose
`redaction_status` is not `'user_confirmed'` or `'skipped'` (e.g.
`'pending'` or `'auto_detected'`, or null) before the analysis collaborator
is invoked, and the only path that reaches the `analyzing` state and the
external call (`proceed`) requires `redaction_status ∈
{user_confirmed, skipped}`. -/
theorem C1_privacy_gate (doc : Option DocRecord) :
    (∀ d, doc = some d →
      ¬((d.redaction_status.getD []) = "user_confirmed".data ∨
        (d.redaction_status.getD []) = "skipped".data) →
      analyzeDecision doc = AnalyzeDecision.shieldRejected) ∧
    (∀ t, analyzeDecision doc = AnalyzeDecision.proceed t →
      ∃ d, doc = some d ∧
        ((d.redaction_status.getD []) = "user_confirmed".data ∨
         (d.redaction_status.getD []) = "skipped".data)) := by
  constructor
  · rintro d rfl hguard
    simp only [analyzeDecision]
    rw [if_pos hguard]
  · intro t hp
    cases doc with
    | none => simp [analyzeDecision] at hp
    | some d =>
        refine ⟨d, rfl, ?_⟩
        by_contra hguard
        simp only [analyzeDecision] at hp
        rw [if_pos hguard] at hp
        exact AnalyzeDecision.noConfusion hp

/-- Witness for C1: a document with `redaction_status = 'pending'` is
rejected by the Privacy Shield before any analysis. -/
theorem C1_privacy_gate_witness :
    analyzeDecision (some ⟨some ("text".data), some ("text".data), [],
        some ("pending".data), some ("uploaded".data)⟩) =
      AnalyzeDecision.shieldRejected :=
  (C1_privacy_gate _).1 _ rfl (by decide)

/-- C9 (amended): when the analysis response parses but its un-redacted
version fails to re-parse, the route neither crashes nor fails the request:
it falls back to the still-masked parsed analysis as the structured result —
but it does **not** flag the document; it stores `status = 'analyzed'` and
the audit copy exactly as on the fully successful path, so the fallback is
silent. -/
theorem C9_malformed_unredact_fallback (rawText : List Char)
    (redactionMap : List (List Char × List Char)) (a : Json)
    (hparse : jsonParse (cleanResponse rawText) = some a)
    (hfail : jsonParse (cleanResponse (unRedact rawText redactionMap)) = none) :
    processClaudeOutput rawText redactionMap =
      ⟨200, "analyzed".data, some rawText, some a⟩ := by
  unfold processClaudeOutput
  rw [hparse]
  simp only
  rw [hfail]
  rfl

/-- Witness for C9 (amended) at a concrete response and map: the
un-redacted version is invalid JSON, and the route returns the masked
analysis with a 200 response and status `analyzed`. -/
theorem C9_malformed_unredact_fallback_witness :
    jsonParse (cleanResponse ("\x7b\"x\": \"[B]\"\x7d".data)) =
        some (Json.jobj [("x".data, Json.jstr ("[B]".data))]) ∧
      jsonParse (cleanResponse
        (unRedact ("\x7b\"x\": \"[B]\"\x7d".data) [("[B]".data, "\"".data)])) = none ∧
      processClaudeOutput ("\x7b\"x\": \"[B]\"\x7d".data) [("[B]".data, "\"".data)] =
        ⟨200, "analyzed".data, some ("\x7b\"x\": \"[B]\"\x7d".data),
         some (Json.jobj [("x".data, Json.jstr ("[B]".data))])⟩ := by
  refine ⟨rfl, rfl, ?_⟩
  exact C9_malformed_unredact_fallback _ _ _ rfl rfl

/-- C9 counterexample: at a concrete response whose un-redacted version
fails to re-parse, the route stores `status = 'analyzed'` and returns the
still-masked analysis with HTTP 200 — indistinguishable from a fully
successful analysis, with no needs-attention flag anywhere in the update —
contradicting the claim that the document is flagged as needing
attention. -/
theorem C9_counterexample :
    jsonParse (cleanResponse ("\x7b\"summary\": \"[A]\"\x7d".data)) =
        some (Json.jobj [("summary".data, Json.jstr ("[A]".data))]) ∧
      jsonParse (cleanResponse
        (unRedact ("\x7b\"summary\": \"[A]\"\x7d".data)
          [("[A]".data, "\"".data)])) = none ∧
      processClaudeOutput ("\x7b\"summary\": \"[A]\"\x7d".data)
          [("[A]".data, "\"".data)] =
        ⟨200, "analyzed".data, some ("\x7b\"summary\": \"[A]\"\x7d".data),
         some (Json.jobj [("summary".data, Json.jstr ("[A]".data))])⟩ :=
  ⟨rfl, rfl, rfl⟩

/-!  The redaction round trip (C2).  Step 1: `applyRedactions` produces the
alternating gap/slot decomposition `initSegs`. -/

theorem slice_split {T : List Char} {a b c : Nat} (hab : a ≤ b) (hbc : b ≤ c) :
    (T.drop a).take (c - a) =
      (T.drop a).take (b - a) ++ (T.drop b).take (c - b) := by
  have h1 : c - a = (b - a) + (c - b) := by omega
  rw [h1, List.take_add, List.drop_drop, show a + (b - a) = b by omega]

theorem mem_take_drop {T : List Char} {p n : Nat} {c : Char}
    (h : c ∈ (T.drop p).take n) : c ∈ T :=
  List.drop_subset p T (List.take_subset _ _ h)

theorem sep_pairwise : ∀ (cs : List PIIDetection),
    List.Chain' (fun a b => a.«end» < b.start) cs →
    (∀ f ∈ cs, f.start ≤ f.«end») →
    cs.Pairwise (fun a b => a.«end» < b.start) := by
  intro cs
  induction cs with
  | nil => intro _ _; exact List.Pairwise.nil
  | cons a t ih =>
      intro hchain hv
      obtain ⟨hh, ht⟩ := List.chain'_cons'.mp hchain
      have hpt := ih ht (fun f hf => hv f (List.mem_cons_of_mem _ hf))
      refine List.pairwise_cons.mpr ⟨?_, hpt⟩
      intro b hb
      cases t with
      | nil => simp at hb
      | cons c t' =>
          have hac : a.«end» < c.start := hh c rfl
          rcases List.mem_cons.mp hb with rfl | hb'
          · exact hac
          · have h1 := (List.pairwise_cons.mp hpt).1 b hb'
            have hc := hv c (List.mem_cons_of_mem a (List.mem_cons_self c t'))
            omega

theorem sortBy_desc_of_strict : ∀ {cs : List PIIDetection},
    cs.Pairwise (fun a b => a.start < b.start) →
    sortBy leStartDesc cs = cs.reverse := by
  intro cs
  induction cs with
  | nil => intro _; rfl
  | cons c rest ih =>
      intro h
      have h1 := (List.pairwise_cons.mp h).1
      have h2 := (List.pairwise_cons.mp h).2
      rw [List.reverse_cons]
      show insertLe leStartDesc c (sortBy leStartDesc rest) = rest.reverse ++ [c]
      rw [ih h2]
      refine insertLe_of_all_false ?_
      intro b hb
      have hb' : b ∈ rest := List.mem_reverse.mp hb
      unfold leStartDesc
      exact decide_eq_false (by have := h1 b hb'; omega)

theorem applyRedactions_split :
    ∀ (l : List PIIDetection) (t : List Char)
      (m : List (List Char × List Char)),
      l.foldl (fun acc d =>
        (⟨jsSlice acc.redactedText 0 d.start ++ d.suggestedMask ++
            jsDrop acc.redactedText d.«end»,
          recUpsert acc.redactionMap d.suggestedMask d.original⟩ :
          RedactionResult)) ⟨t, m⟩ =
      ⟨l.foldl (fun t d => jsSlice t 0 d.start ++ d.suggestedMask ++
          jsDrop t d.«end») t,
       l.foldl (fun m d => recUpsert m d.suggestedMask d.original) m⟩ := by
  intro l
  induction l with
  | nil => intro t m; rfl
  | cons d rest ih => intro t m; exact ih _ _

theorem applyRedactions_eq (T : List Char) (ds : List PIIDetection) :
    applyRedactions T ds =
      ⟨(sortBy leStartDesc (ds.filter (·.confirmed))).foldl
          (fun t d => jsSlice t 0 d.start ++ d.suggestedMask ++
            jsDrop t d.«end») T,
        (sortBy leStartDesc (ds.filter (·.confirmed))).foldl
          (fun m d => recUpsert m d.suggestedMask d.original) []⟩ := by
  unfold applyRedactions
  exact applyRedactions_split _ T []

theorem rsegText_nil : rsegText [] = [] := rfl

theorem rsegText_cons (seg : RSeg) (rest : List RSeg) :
    rsegText (seg :: rest) =
      (match seg with
        | .gap g => g
        | .slot m o done => if done then o else m) ++ rsegText rest := rfl

theorem foldr_splice_eq {T : List Char} :
    ∀ (cs : List PIIDetection) (p : Nat),
      List.Chain' (fun a b => a.«end» ≤ b.start) cs →
      (∀ f ∈ cs, f.start ≤ f.«end» ∧ f.«end» ≤ T.length) →
      (∀ f, cs.head? = some f → p ≤ f.start) → p ≤ T.length →
      cs.foldr (fun d t => jsSlice t 0 d.start ++ d.suggestedMask ++
          jsDrop t d.«end») T =
        T.take p ++ rsegText (initSegs T p cs) := by
  intro cs
  induction cs with
  | nil =>
      intro p _ _ _ hp
      show T = T.take p ++ rsegText [RSeg.gap (T.drop p)]
      rw [rsegText_cons, rsegText_nil, List.append_nil, List.take_append_drop]
  | cons f rest ih =>
      intro p hchain hv hhead hp
      obtain ⟨hse, hel⟩ := hv f (List.mem_cons_self f rest)
      have hps : p ≤ f.start := hhead f rfl
      have hX := ih f.«end» (List.chain'_cons'.mp hchain).2
        (fun g hg => hv g (List.mem_cons_of_mem f hg))
        (fun g hg => (List.chain'_cons'.mp hchain).1 g hg) hel
      show jsSlice _ 0 f.start ++ f.suggestedMask ++ jsDrop _ f.«end» = _
      rw [hX]
      have hlen : (T.take f.«end»).length = f.«end» := by
        rw [List.length_take]; omega
      have htake : jsSlice (T.take f.«end» ++
          rsegText (initSegs T f.«end» rest)) 0 f.start = T.take f.start := by
        unfold jsSlice
        rw [List.take_append_of_le_length (by omega), List.take_take,
          List.drop_zero]
        congr 1
        omega
      have hdrop : jsDrop (T.take f.«end» ++
          rsegText (initSegs T f.«end» rest)) f.«end» =
          rsegText (initSegs T f.«end» rest) := by
        unfold jsDrop
        have hdl := List.drop_left (T.take f.«end»)
          (rsegText (initSegs T f.«end» rest))
        rw [hlen] at hdl
        exact hdl
      rw [htake, hdrop]
      show T.take f.start ++ f.suggestedMask ++ rsegText (initSegs T f.«end» rest) =
        T.take p ++ rsegText (initSegs T p (f :: rest))
      show _ = T.take p ++ rsegText (RSeg.gap ((T.drop p).take (f.start - p)) ::
        RSeg.slot f.suggestedMask f.original false :: initSegs T f.«end» rest)
      rw [rsegText_cons, rsegText_cons]
      have hgap : T.take p ++ (T.drop p).take (f.start - p) = T.take f.start := by
        have := List.take_add T p (f.start - p)
        rw [show p + (f.start - p) = f.start by omega] at this
        exact this.symm
      rw [← List.append_assoc, ← List.append_assoc, hgap, List.append_assoc]
      simp only [Bool.false_eq_true, if_false]
      rw [List.append_assoc]

/-!  Step 2: the redaction map built by the fold of `recUpsert`. -/

theorem recUpsert_lookup_self (m : List (List Char × List Char))
    (k v : List Char) : recLookup (recUpsert m k v) k = some v := by
  induction m with
  | nil => simp [recUpsert, recLookup]
  | cons p rest ih =>
      obtain ⟨k', v'⟩ := p
      unfold recUpsert
      by_cases hk : k' = k
      · simp [recLookup, hk]
      · rw [if_neg hk]
        simp only [recLookup, if_neg hk]
        exact ih

theorem recUpsert_lookup_other {m : List (List Char × List Char)}
    {k k' v : List Char} (h : k ≠ k') :
    recLookup (recUpsert m k v) k' = recLookup m k' := by
  induction m with
  | nil => simp [recUpsert, recLookup, h]
  | cons p rest ih =>
      obtain ⟨k'', v''⟩ := p
      unfold recUpsert
      by_cases hk : k'' = k
      · rw [if_pos hk]
        simp only [recLookup]
        rw [if_neg (by rw [hk]; exact fun hc => h hc), if_neg (by rw [hk]; exact fun hc => h hc)]
      · rw [if_neg hk]
        simp only [recLookup]
        by_cases hk' : k'' = k'
        · rw [if_pos hk', if_pos hk']
        · rw [if_neg hk', if_neg hk']
          exact ih

theorem foldl_upsert_lookup_mem :
    ∀ (l : List PIIDetection) (m0 : List (List Char × List Char))
      {k v : List Char},
      recLookup (l.foldl (fun m d => recUpsert m d.suggestedMask d.original) m0) k
        = some v →
      (∃ d ∈ l, d.suggestedMask = k ∧ d.original = v) ∨
        recLookup m0 k = some v := by
  intro l
  induction l with
  | nil => intro m0 k v h; exact Or.inr h
  | cons d rest ih =>
      intro m0 k v h
      rcases ih _ h with ⟨g, hg, hgk, hgv⟩ | h'
      · exact Or.inl ⟨g, List.mem_cons_of_mem d hg, hgk, hgv⟩
      · by_cases hk : d.suggestedMask = k
        · rw [← hk, recUpsert_lookup_self] at h'
          exact Or.inl ⟨d, List.mem_cons_self d rest, hk, Option.some.inj h'⟩
        · rw [recUpsert_lookup_other hk] at h'
          exact Or.inr h'

theorem foldl_upsert_isSome :
    ∀ (l : List PIIDetection) (m0 : List (List Char × List Char))
      {k : List Char},
      recLookup m0 k ≠ none →
      recLookup (l.foldl (fun m d => recUpsert m d.suggestedMask d.original) m0) k
        ≠ none := by
  intro l
  induction l with
  | nil => intro m0 k h; exact h
  | cons d rest ih =>
      intro m0 k h
      refine ih _ ?_
      by_cases hk : d.suggestedMask = k
      · rw [← hk, recUpsert_lookup_self]
        simp
      · rw [recUpsert_lookup_other hk]
        exact h

theorem foldl_upsert_mem_isSome :
    ∀ (l : List PIIDetection) (m0 : List (List Char × List Char))
      {f : PIIDetection}, f ∈ l →
      recLookup (l.foldl (fun m d => recUpsert m d.suggestedMask d.original) m0)
        f.suggestedMask ≠ none := by
  intro l
  induction l with
  | nil => intro m0 f h; simp at h
  | cons d rest ih =>
      intro m0 f h
      rcases List.mem_cons.mp h with rfl | h'
      · refine foldl_upsert_isSome rest _ ?_
        rw [recUpsert_lookup_self]
        simp
      · exact ih _ h'

/-- The mask → original lookup of the map produced by `applyRedactions`:
under the same-mask-same-original hypothesis, each confirmed finding's mask
maps to its original. -/
theorem applyRedactions_map_lookup (T : List Char) (ds : List PIIDetection)
    {f : PIIDetection} (hf : f ∈ ds.filter (·.confirmed))
    (hsame : ∀ g h, g ∈ ds.filter (·.confirmed) → h ∈ ds.filter (·.confirmed) →
      g.suggestedMask = h.suggestedMask → g.original = h.original) :
    recLookup (applyRedactions T ds).redactionMap f.suggestedMask =
      some f.original := by
  rw [applyRedactions_eq]
  show recLookup ((sortBy leStartDesc (ds.filter (·.confirmed))).foldl
      (fun m d => recUpsert m d.suggestedMask d.original) [])
      f.suggestedMask = some f.original
  have hf' : f ∈ sortBy leStartDesc (ds.filter (·.confirmed)) :=
    mem_sortBy.mpr hf
  have hsome := foldl_upsert_mem_isSome _ [] hf'
  cases hlook : recLookup ((sortBy leStartDesc (ds.filter (·.confirmed))).foldl
      (fun m d => recUpsert m d.suggestedMask d.original) [])
      f.suggestedMask with
  | none => exact absurd hlook hsome
  | some v =>
      rcases foldl_upsert_lookup_mem _ [] hlook with ⟨g, hg, hgk, hgv⟩ | h'
      · have hgo := hsame g f (mem_sortBy.mp hg) hf hgk
        rw [← hgv, hgo]
      · simp [recLookup] at h'

/-- Every key of the map produced by `applyRedactions` is the mask of a
confirmed finding. -/
theorem applyRedactions_keys (T : List Char) (ds : List PIIDetection)
    {k : List Char}
    (hk : k ∈ recKeys (applyRedactions T ds).redactionMap) :
    ∃ f ∈ ds.filter (·.confirmed), f.suggestedMask = k := by
  rw [applyRedactions_eq] at hk
  replace hk : k ∈ recKeys ((sortBy leStartDesc (ds.filter (·.confirmed))).foldl
      (fun m d => recUpsert m d.suggestedMask d.original) []) := hk
  cases hlook : recLookup ((sortBy leStartDesc (ds.filter (·.confirmed))).foldl
      (fun m d => recUpsert m d.suggestedMask d.original) []) k with
  | none => exact absurd (recLookup_none_iff.mp hlook) (by simpa using hk)
  | some v =>
      rcases foldl_upsert_lookup_mem _ [] hlook with ⟨g, hg, hgk, _⟩ | h'
      · exact ⟨g, mem_sortBy.mp hg, hgk⟩
      · simp [recLookup] at h'

/-!  Step 3: structure of `initSegs`. -/

theorem initSegs_gap_mem {T : List Char} :
    ∀ (cs : List PIIDetection) (p : Nat) {g : List Char},
      RSeg.gap g ∈ initSegs T p cs → ∀ c ∈ g, c ∈ T := by
  intro cs
  induction cs with
  | nil =>
      intro p g hg c hc
      simp only [initSegs, List.mem_singleton] at hg
      injection hg with h
      subst h
      exact List.drop_subset p T hc
  | cons f rest ih =>
      intro p g hg c hc
      simp only [initSegs, List.mem_cons] at hg
      rcases hg with hg | hg | hg
      · injection hg with h
        subst h
        exact mem_take_drop hc
      · exact absurd hg (by simp)
      · exact ih _ hg c hc

theorem initSegs_slot_mem {T : List Char} :
    ∀ (cs : List PIIDetection) (p : Nat) {m o : List Char} {b : Bool},
      RSeg.slot m o b ∈ initSegs T p cs →
      b = false ∧ ∃ f ∈ cs, m = f.suggestedMask ∧ o = f.original := by
  intro cs
  induction cs with
  | nil =>
      intro p m o b h
      simp only [initSegs, List.mem_singleton] at h
      exact absurd h (by simp)
  | cons f rest ih =>
      intro p m o b h
      simp only [initSegs, List.mem_cons] at h
      rcases h with h | h | h
      · exact absurd h (by simp)
      · have h1 : m = f.suggestedMask ∧ o = f.original ∧ b = false := by
          have := h
          injection this with e1 e2 e3
          exact ⟨e1, e2, e3⟩
        exact ⟨h1.2.2, f, List.mem_cons_self f rest, h1.1, h1.2.1⟩
      · obtain ⟨hb, f', hf', hm, ho⟩ := ih _ h
        exact ⟨hb, f', List.mem_cons_of_mem f hf', hm, ho⟩

theorem initSegs_separated {T : List Char} :
    ∀ (cs : List PIIDetection) (p : Nat),
      List.Chain' (fun a b => a.«end» < b.start) cs →
      (∀ f ∈ cs, f.start ≤ f.«end» ∧ f.«end» ≤ T.length) →
      slotsSeparated (initSegs T p cs) := by
  intro cs
  induction cs with
  | nil => intro p _ _; exact trivial
  | cons f rest ih =>
      intro p hchain hv
      have hsep := ih f.«end» (List.chain'_cons'.mp hchain).2
        (fun g hg => hv g (List.mem_cons_of_mem f hg))
      show noSlotBeforeGap (initSegs T f.«end» rest) ∧
        slotsSeparated (initSegs T f.«end» rest)
      refine ⟨?_, hsep⟩
      cases rest with
      | nil =>
          show T.drop f.«end» ≠ [] ∨ noSlotBeforeGap ([] : List RSeg)
          exact Or.inr trivial
      | cons f2 rest' =>
          show (T.drop f.«end»).take (f2.start - f.«end») ≠ [] ∨ False
          left
          have hlt : f.«end» < f2.start := (List.chain'_cons'.mp hchain).1 f2 rfl
          obtain ⟨h2s, h2e⟩ := hv f2 (List.mem_cons_of_mem f (List.mem_cons_self f2 rest'))
          intro hemp
          have hlen := congrArg List.length hemp
          rw [List.length_take, List.length_drop] at hlen
          simp at hlen
          omega

/-!  Step 4: one `split/join` replace-all pass over the rendered segments
restores exactly the slots carrying the processed mask. -/

theorem rsegText_head_ctx {T : List Char} :
    ∀ (rest : List RSeg), noSlotBeforeGap rest →
      (∀ g, RSeg.gap g ∈ rest → ∀ c ∈ g, c ∈ T) →
      (∀ m o, RSeg.slot m o true ∈ rest → ∀ c ∈ o, c ∈ T) →
      rsegText rest = [] ∨
        ∃ c cs, rsegText rest = c :: cs ∧ c ∈ T := by
  intro rest
  induction rest with
  | nil => intro _ _ _; exact Or.inl rfl
  | cons seg r ih =>
      intro hns hg hd
      cases seg with
      | gap g =>
          rw [rsegText_cons]
          cases g with
          | nil =>
              simp only [List.nil_append]
              have hns' : noSlotBeforeGap r := by
                rcases hns with h | h
                · exact absurd rfl h
                · exact h
              exact ih hns' (fun g' hg' => hg g' (List.mem_cons_of_mem _ hg'))
                (fun m o h' => hd m o (List.mem_cons_of_mem _ h'))
          | cons c g' =>
              exact Or.inr ⟨c, g' ++ rsegText r, rfl,
                hg _ (List.mem_cons_self _ _) c (List.mem_cons_self c g')⟩
      | slot m o done => exact hns.elim

theorem replaceAll_rsegText {T m₀ o₀ : List Char} (hm₀ : m₀ ≠ [])
    (hm₀T : ∀ c ∈ m₀, c ∉ T) :
    ∀ (segs : List RSeg),
      (∀ g, RSeg.gap g ∈ segs → ∀ c ∈ g, c ∈ T) →
      (∀ m o, RSeg.slot m o true ∈ segs → ∀ c ∈ o, c ∈ T) →
      (∀ m o, RSeg.slot m o false ∈ segs →
        m ≠ [] ∧ (∀ c ∈ m, c ∉ T) ∧ m.length ≤ m₀.length) →
      (∀ o, RSeg.slot m₀ o false ∈ segs → o = o₀) →
      slotsSeparated segs →
      jsReplaceAll m₀ o₀ (rsegText segs) = rsegText (segs.map (markDone m₀)) := by
  intro segs
  induction segs with
  | nil =>
      intro _ _ _ _ _
      rw [rsegText_nil]
      rw [replaceAll_nil hm₀]
      rfl
  | cons seg r ih =>
      intro hg hd hu ho hsep
      obtain ⟨c₀, m', rfl⟩ : ∃ c₀ m', m₀ = c₀ :: m' := by
        cases m₀ with
        | nil => exact absurd rfl hm₀
        | cons c₀ m' => exact ⟨c₀, m', rfl⟩
      have hc₀ : c₀ ∉ T := hm₀T c₀ (List.mem_cons_self c₀ m')
      have hgr : ∀ g, RSeg.gap g ∈ r → ∀ c ∈ g, c ∈ T :=
        fun g h => hg g (List.mem_cons_of_mem _ h)
      have hdr : ∀ m o, RSeg.slot m o true ∈ r → ∀ c ∈ o, c ∈ T :=
        fun m o h => hd m o (List.mem_cons_of_mem _ h)
      have hur : ∀ m o, RSeg.slot m o false ∈ r →
          m ≠ [] ∧ (∀ c ∈ m, c ∉ T) ∧ m.length ≤ (c₀ :: m').length :=
        fun m o h => hu m o (List.mem_cons_of_mem _ h)
      have hor : ∀ o, RSeg.slot (c₀ :: m') o false ∈ r → o = o₀ :=
        fun o h => ho o (List.mem_cons_of_mem _ h)
      cases seg with
      | gap g =>
          rw [rsegText_cons]
          have hskip := replaceAll_skip (r := o₀) hm₀ g
            (X := rsegText r)
            (prefix_false_of_head_ne (fun c hc hcc =>
              hc₀ (hcc ▸ hg g (List.mem_cons_self _ _) c hc)))
          rw [hskip, ih hgr hdr hur hor hsep]
          rfl
      | slot m o done =>
          cases done with
          | true =>
              obtain ⟨hns, hsepr⟩ := hsep
              rw [rsegText_cons]
              simp only [if_true]
              have hskip := replaceAll_skip (r := o₀) hm₀ o
                (X := rsegText r)
                (prefix_false_of_head_ne (fun c hc hcc =>
                  hc₀ (hcc ▸ hd m o (List.mem_cons_self _ _) c hc)))
              rw [hskip, ih hgr hdr hur hor hsepr]
              rfl
          | false =>
              obtain ⟨hmne, hmT, hmlen⟩ := hu m o (List.mem_cons_self _ _)
              obtain ⟨hns, hsepr⟩ := hsep
              by_cases hm : m = c₀ :: m'
              · subst hm
                obtain rfl : o = o₀ := ho o (List.mem_cons_self _ _)
                rw [rsegText_cons]
                simp only [Bool.false_eq_true, if_false]
                rw [replaceAll_head hm₀, ih hgr hdr hur hor hsepr]
                have hmap : (RSeg.slot (c₀ :: m') o false :: r).map
                    (markDone (c₀ :: m')) =
                    RSeg.slot (c₀ :: m') o true ::
                      r.map (markDone (c₀ :: m')) := by
                  rw [List.map_cons]
                  congr 1
                  show (if (c₀ :: m') = (c₀ :: m') then RSeg.slot (c₀ :: m') o true
                    else RSeg.slot (c₀ :: m') o false) = RSeg.slot (c₀ :: m') o true
                  rw [if_pos rfl]
                rw [hmap, rsegText_cons]
                simp only [if_true]
              · have hXctx := rsegText_head_ctx r hns hgr hdr
                have hpref : ∀ j, j < m.length →
                    (c₀ :: m').isPrefixOf ((m ++ rsegText r).drop j) = false := by
                  intro j hj
                  refine Bool.eq_false_iff.mpr (fun hp => ?_)
                  obtain ⟨t, ht⟩ := List.isPrefixOf_iff_prefix.mp hp
                  rw [List.drop_append_of_le_length (le_of_lt hj)] at ht
                  rcases Nat.lt_or_ge (m.length - j) (c₀ :: m').length with hc | hc
                  · rcases hXctx with hX | ⟨c, cs, hX, hcT⟩
                    · rw [hX, List.append_nil] at ht
                      have h1 := congrArg List.length ht
                      simp only [List.length_append, List.length_drop] at h1
                      omega
                    · rw [hX] at ht
                      set i := m.length - j with hi
                      have hlen1 : (m.drop j).length = i := by
                        rw [List.length_drop]
                      have e1 : ((c₀ :: m') ++ t)[i]? = some ((c₀ :: m').get ⟨i, hc⟩) := by
                        rw [List.getElem?_append_left (by omega),
                          List.getElem?_eq_getElem hc]
                        rfl
                      have e2 : (m.drop j ++ (c :: cs))[i]? = some c := by
                        rw [List.getElem?_append_right (by omega), hlen1]
                        simp
                      rw [ht, e2] at e1
                      have hci : c = (c₀ :: m').get ⟨i, hc⟩ :=
                        Option.some.inj e1
                      exact hm₀T _ (List.get_mem _ _ _) (hci ▸ hcT)
                  · have hj0 : j = 0 ∧ m.length = (c₀ :: m').length := by
                      simp only [List.length_cons] at hmlen hc ⊢
                      omega
                    obtain ⟨rfl, hlen⟩ := hj0
                    rw [List.drop_zero] at ht
                    have := List.append_inj ht.symm hlen
                    exact hm this.1
                have hskip := replaceAll_skip (r := o₀) hm₀ m
                  (X := rsegText r) hpref
                rw [rsegText_cons]
                simp only [Bool.false_eq_true, if_false]
                rw [hskip, ih hgr hdr hur hor hsepr]
                have hmap : (RSeg.slot m o false :: r).map (markDone (c₀ :: m')) =
                    RSeg.slot m o false :: r.map (markDone (c₀ :: m')) := by
                  rw [List.map_cons]
                  congr 1
                  show (if m = c₀ :: m' then RSeg.slot m o true
                    else RSeg.slot m o false) = RSeg.slot m o false
                  rw [if_neg hm]
                rw [hmap, rsegText_cons]
                simp only [Bool.false_eq_true, if_false]

/-!  Step 5: marking slots done — shape and preservation lemmas. -/

theorem markDone_gap (m₀ g : List Char) :
    markDone m₀ (RSeg.gap g) = RSeg.gap g := rfl

theorem markDone_slot (m₀ m o : List Char) (d : Bool) :
    markDone m₀ (RSeg.slot m o d) =
      RSeg.slot m o (d || decide (m = m₀)) := by
  cases d with
  | true => rfl
  | false =>
      by_cases h : m = m₀
      · simp [markDone, h]
      · simp [markDone, h]

theorem forceDone_markDone (m₀ : List Char) (seg : RSeg) :
    forceDone (markDone m₀ seg) = forceDone seg := by
  cases seg with
  | gap g => rfl
  | slot m o d => rw [markDone_slot]; rfl

theorem map_markDone_forceDone (m₀ : List Char) (segs : List RSeg) :
    (segs.map (markDone m₀)).map forceDone = segs.map forceDone := by
  rw [List.map_map]
  exact List.map_congr_left (fun seg _ => forceDone_markDone m₀ seg)

theorem noSlotBeforeGap_markDone (m₀ : List Char) :
    ∀ segs : List RSeg, noSlotBeforeGap segs →
      noSlotBeforeGap (segs.map (markDone m₀)) := by
  intro segs
  induction segs with
  | nil => intro h; exact h
  | cons seg rest ih =>
      intro h
      cases seg with
      | gap g =>
          rw [List.map_cons, markDone_gap]
          show g ≠ [] ∨ noSlotBeforeGap (rest.map (markDone m₀))
          rcases h with h | h
          · exact Or.inl h
          · exact Or.inr (ih h)
      | slot m o d => exact h.elim

theorem slotsSeparated_markDone (m₀ : List Char) :
    ∀ segs : List RSeg, slotsSeparated segs →
      slotsSeparated (segs.map (markDone m₀)) := by
  intro segs
  induction segs with
  | nil => intro h; exact h
  | cons seg rest ih =>
      intro h
      cases seg with
      | gap g =>
          rw [List.map_cons, markDone_gap]
          show slotsSeparated (rest.map (markDone m₀))
          exact ih h
      | slot m o d =>
          rw [List.map_cons, markDone_slot]
          obtain ⟨h1, h2⟩ := h
          show noSlotBeforeGap (rest.map (markDone m₀)) ∧
            slotsSeparated (rest.map (markDone m₀))
          exact ⟨noSlotBeforeGap_markDone m₀ rest h1, ih h2⟩

theorem markDone_mem_gap {m₀ g : List Char} {segs : List RSeg}
    (h : RSeg.gap g ∈ segs.map (markDone m₀)) : RSeg.gap g ∈ segs := by
  obtain ⟨seg, hseg, he⟩ := List.mem_map.mp h
  cases seg with
  | gap g' =>
      rw [markDone_gap] at he
      injection he with e
      subst e
      exact hseg
  | slot m o d =>
      rw [markDone_slot] at he
      exact absurd he (by simp)

theorem markDone_mem_slot {m₀ m o : List Char} {d : Bool} {segs : List RSeg}
    (h : RSeg.slot m o d ∈ segs.map (markDone m₀)) :
    ∃ d₂, RSeg.slot m o d₂ ∈ segs := by
  obtain ⟨seg, hseg, he⟩ := List.mem_map.mp h
  cases seg with
  | gap g =>
      rw [markDone_gap] at he
      exact absurd he (by simp)
  | slot m₂ o₂ d₂ =>
      rw [markDone_slot] at he
      injection he with e1 e2 e3
      subst e1
      subst e2
      exact ⟨d₂, hseg⟩

theorem markDone_mem_undone {m₀ m o : List Char} {segs : List RSeg}
    (h : RSeg.slot m o false ∈ segs.map (markDone m₀)) :
    RSeg.slot m o false ∈ segs ∧ m ≠ m₀ := by
  obtain ⟨seg, hseg, he⟩ := List.mem_map.mp h
  cases seg with
  | gap g =>
      rw [markDone_gap] at he
      exact absurd he (by simp)
  | slot m₂ o₂ d₂ =>
      rw [markDone_slot] at he
      injection he with e1 e2 e3
      subst e1
      subst e2
      cases d₂ with
      | true => exact absurd e3 (by simp)
      | false =>
          simp only [Bool.false_or, decide_eq_false_iff_not] at e3
          exact ⟨hseg, e3⟩

theorem map_forceDone_id : ∀ (segs : List RSeg),
    (∀ m o, RSeg.slot m o false ∈ segs → False) →
    segs.map forceDone = segs := by
  intro segs
  induction segs with
  | nil => intro _; rfl
  | cons seg rest ih =>
      intro h
      rw [List.map_cons, ih (fun m o hmo => h m o (List.mem_cons_of_mem _ hmo))]
      congr 1
      cases seg with
      | gap g => rfl
      | slot m o d =>
          cases d with
          | true => rfl
          | false => exact (h m o (List.mem_cons_self _ _)).elim

/-!  Step 6: the whole `unRedact` fold restores every slot. -/

theorem unredact_fold_restores {T : List Char}
    (mp : List (List Char × List Char)) :
    ∀ (ms : List (List Char)) (segs : List RSeg),
      ms.Pairwise (fun a b => b.length ≤ a.length) →
      (∀ m ∈ ms, m ≠ [] ∧ ∀ c ∈ m, c ∉ T) →
      (∀ g, RSeg.gap g ∈ segs → ∀ c ∈ g, c ∈ T) →
      (∀ m o d, RSeg.slot m o d ∈ segs → ∀ c ∈ o, c ∈ T) →
      (∀ m o, RSeg.slot m o false ∈ segs →
        m ∈ ms ∧ recLookup mp m = some o) →
      slotsSeparated segs →
      ms.foldl (fun result mask =>
          jsReplaceAll mask ((recLookup mp mask).getD []) result)
        (rsegText segs) = rsegText (segs.map forceDone) := by
  intro ms
  induction ms with
  | nil =>
      intro segs _ _ _ _ hund _
      simp only [List.foldl_nil]
      rw [map_forceDone_id segs (fun m o h => by
        have hmem := (hund m o h).1
        simp at hmem)]
  | cons m₀ tail ih =>
      intro segs hpw hms hg hslot hund hsep
      simp only [List.foldl_cons]
      have hm₀ := hms m₀ (List.mem_cons_self _ _)
      have hu : ∀ m o, RSeg.slot m o false ∈ segs →
          m ≠ [] ∧ (∀ c ∈ m, c ∉ T) ∧ m.length ≤ m₀.length := by
        intro m o h
        obtain ⟨hmem, _⟩ := hund m o h
        have hm := hms m hmem
        refine ⟨hm.1, hm.2, ?_⟩
        rcases List.mem_cons.mp hmem with rfl | htl
        · exact le_refl _
        · exact (List.pairwise_cons.mp hpw).1 m htl
      have ho : ∀ o, RSeg.slot m₀ o false ∈ segs →
          o = (recLookup mp m₀).getD [] := by
        intro o h
        obtain ⟨_, hlook⟩ := hund m₀ o h
        rw [hlook]
        rfl
      have hrepl := @replaceAll_rsegText T m₀ ((recLookup mp m₀).getD [])
        hm₀.1 hm₀.2 segs hg (fun m o h => hslot m o true h) hu ho hsep
      rw [hrepl]
      rw [ih (segs.map (markDone m₀)) (List.pairwise_cons.mp hpw).2
        (fun m hm => hms m (List.mem_cons_of_mem _ hm))
        (fun g h => hg g (markDone_mem_gap h))
        (fun m o d h => by
          obtain ⟨d₂, hd₂⟩ := markDone_mem_slot h
          exact hslot m o d₂ hd₂)
        (fun m o h => by
          obtain ⟨hmem, hne⟩ := markDone_mem_undone h
          obtain ⟨hin, hlook⟩ := hund m o hmem
          refine ⟨?_, hlook⟩
          rcases List.mem_cons.mp hin with rfl | htl
          · exact absurd rfl hne
          · exact htl)
        (slotsSeparated_markDone m₀ segs hsep)]
      rw [map_markDone_forceDone]

/-!  Step 7: the fully restored rendering is the original text, and every
span lying between the confirmed findings survives into the redacted
text verbatim. -/

theorem rsegText_forceDone {T : List Char} :
    ∀ (cs : List PIIDetection) (p : Nat),
      List.Chain' (fun a b => a.«end» ≤ b.start) cs →
      (∀ f ∈ cs, f.start ≤ f.«end» ∧ f.«end» ≤ T.length ∧
        f.original = jsSlice T f.start f.«end») →
      (∀ f, cs.head? = some f → p ≤ f.start) →
      rsegText ((initSegs T p cs).map forceDone) = T.drop p := by
  intro cs
  induction cs with
  | nil =>
      intro p _ _ _
      show rsegText [RSeg.gap (T.drop p)] = T.drop p
      rw [rsegText_cons, rsegText_nil, List.append_nil]
  | cons f rest ih =>
      intro p hchain hv hhead
      obtain ⟨hse, hel, horig⟩ := hv f (List.mem_cons_self f rest)
      have hps : p ≤ f.start := hhead f rfl
      show rsegText (RSeg.gap ((T.drop p).take (f.start - p)) ::
        RSeg.slot f.suggestedMask f.original true ::
        (initSegs T f.«end» rest).map forceDone) = T.drop p
      rw [rsegText_cons, rsegText_cons]
      simp only [if_true]
      rw [ih f.«end» (List.chain'_cons'.mp hchain).2
        (fun g hg => hv g (List.mem_cons_of_mem f hg))
        (fun g hg => (List.chain'_cons'.mp hchain).1 g hg)]
      rw [horig, jsSlice_eq]
      have h1 : (T.drop p).take (f.start - p) ++
          (T.drop f.start).take (f.«end» - f.start) =
          (T.drop p).take (f.«end» - p) := (slice_split hps hse).symm
      rw [← List.append_assoc, h1]
      have h2 : (T.drop p).drop (f.«end» - p) = T.drop f.«end» := by
        rw [List.drop_drop]
        congr 1
        omega
      rw [← h2, List.take_append_drop]

theorem slice_in_initSegs {T : List Char} :
    ∀ (cs : List PIIDetection) (p a b : Nat),
      p ≤ a → a ≤ b →
      (∀ f ∈ cs, b ≤ f.start ∨ f.«end» ≤ a) →
      (∀ f, cs.head? = some f → p ≤ f.start) →
      List.Chain' (fun x y => x.«end» ≤ y.start) cs →
      (∀ f ∈ cs, f.start ≤ f.«end») →
      ∃ u v, rsegText (initSegs T p cs) = u ++ jsSlice T a b ++ v := by
  intro cs
  induction cs with
  | nil =>
      intro p a b hpa hab _ _ _ _
      refine ⟨(T.drop p).take (a - p), T.drop b, ?_⟩
      show rsegText [RSeg.gap (T.drop p)] = _
      rw [rsegText_cons, rsegText_nil, List.append_nil, jsSlice_eq]
      have h1 : (T.drop p).take (a - p) ++ (T.drop a).take (b - a) =
          (T.drop p).take (b - p) := (slice_split hpa hab).symm
      have h2 : (T.drop p).drop (b - p) = T.drop b := by
        rw [List.drop_drop]
        congr 1
        omega
      rw [h1, ← h2, List.take_append_drop]
  | cons f rest ih =>
      intro p a b hpa hab hdis hhead hchain hv
      have hps : p ≤ f.start := hhead f rfl
      have hse : f.start ≤ f.«end» := hv f (List.mem_cons_self f rest)
      rcases hdis f (List.mem_cons_self f rest) with hbf | hfa
      · refine ⟨(T.drop p).take (a - p),
          (T.drop b).take (f.start - b) ++ f.suggestedMask ++
            rsegText (initSegs T f.«end» rest), ?_⟩
        show rsegText (RSeg.gap ((T.drop p).take (f.start - p)) ::
          RSeg.slot f.suggestedMask f.original false ::
          initSegs T f.«end» rest) = _
        rw [rsegText_cons, rsegText_cons]
        simp only [Bool.false_eq_true, if_false]
        rw [slice_split hpa (le_trans hab hbf), slice_split hab hbf,
          jsSlice_eq]
        simp only [List.append_assoc]
      · obtain ⟨u, v, huv⟩ := ih f.«end» a b hfa hab
          (fun g hg => hdis g (List.mem_cons_of_mem _ hg))
          (fun g hg => (List.chain'_cons'.mp hchain).1 g hg)
          (List.chain'_cons'.mp hchain).2
          (fun g hg => hv g (List.mem_cons_of_mem _ hg))
        refine ⟨(T.drop p).take (f.start - p) ++ f.suggestedMask ++ u, v, ?_⟩
        show rsegText (RSeg.gap ((T.drop p).take (f.start - p)) ::
          RSeg.slot f.suggestedMask f.original false ::
          initSegs T f.«end» rest) = _
        rw [rsegText_cons, rsegText_cons]
        simp only [Bool.false_eq_true, if_false]
        rw [huv]
        simp only [List.append_assoc]

/-- C2 (amended): for every text `T` and findings list whose confirmed
findings are strictly separated (each one ends before the next starts),
lie inside `T` with `original = T.slice(start, end)`, carry non-empty
masks whose characters do not occur in `T`, and assign equal masks only to
equal originals, the composition
`unRedact (applyRedactions T ds).redactedText (applyRedactions T ds).redactionMap`
restores `T` exactly; and every unconfirmed finding whose span is valid
and disjoint from all confirmed spans survives in the redacted text as the
plain original substring (it is never masked). -/
theorem C2_round_trip (T : List Char) (ds : List PIIDetection)
    (hchain : List.Chain' (fun a b => a.«end» < b.start)
      (ds.filter (·.confirmed)))
    (hvalid : ∀ f ∈ ds.filter (·.confirmed),
      f.start ≤ f.«end» ∧ f.«end» ≤ T.length ∧
        f.original = jsSlice T f.start f.«end»)
    (hmask : ∀ f ∈ ds.filter (·.confirmed),
      f.suggestedMask ≠ [] ∧ ∀ c ∈ f.suggestedMask, c ∉ T)
    (hsame : ∀ f ∈ ds.filter (·.confirmed), ∀ g ∈ ds.filter (·.confirmed),
      f.suggestedMask = g.suggestedMask → f.original = g.original) :
    unRedact (applyRedactions T ds).redactedText
        (applyRedactions T ds).redactionMap = T ∧
      ∀ f ∈ ds, f.confirmed = false → f.start ≤ f.«end» →
        f.original = jsSlice T f.start f.«end» →
        (∀ g ∈ ds.filter (·.confirmed),
          f.«end» ≤ g.start ∨ g.«end» ≤ f.start) →
        ∃ u v, (applyRedactions T ds).redactedText =
          u ++ f.original ++ v := by
  have hv' : ∀ f ∈ ds.filter (·.confirmed),
      f.start ≤ f.«end» ∧ f.«end» ≤ T.length :=
    fun f hf => ⟨(hvalid f hf).1, (hvalid f hf).2.1⟩
  have hpw : (ds.filter (·.confirmed)).Pairwise
      (fun a b => a.«end» < b.start) :=
    sep_pairwise _ hchain (fun f hf => (hvalid f hf).1)
  have hpw' : (ds.filter (·.confirmed)).Pairwise
      (fun a b => a.start < b.start) := by
    refine List.Pairwise.imp_of_mem ?_ hpw
    intro a b ha hb hr
    exact lt_of_le_of_lt (hv' a ha).1 hr
  have hfoldr := foldr_splice_eq (T := T) (ds.filter (·.confirmed)) 0
    (hchain.imp (fun a b h => le_of_lt h))
    hv' (fun f _ => Nat.zero_le _) (Nat.zero_le _)
  have hred : (applyRedactions T ds).redactedText =
      rsegText (initSegs T 0 (ds.filter (·.confirmed))) := by
    rw [applyRedactions_eq]
    show (sortBy leStartDesc (ds.filter (·.confirmed))).foldl
        (fun t d => jsSlice t 0 d.start ++ d.suggestedMask ++
          jsDrop t d.«end») T =
      rsegText (initSegs T 0 (ds.filter (·.confirmed)))
    rw [sortBy_desc_of_strict hpw']
    simp only [List.foldl_reverse]
    rw [hfoldr, List.take_zero, List.nil_append]
  have hlookup : ∀ f ∈ ds.filter (·.confirmed),
      recLookup (applyRedactions T ds).redactionMap f.suggestedMask =
        some f.original :=
    fun f hf => applyRedactions_map_lookup T ds hf
      (fun g h hg hh => hsame g hg h hh)
  refine ⟨?_, ?_⟩
  · have hsorted : (sortBy leLenDesc
        (recKeys (applyRedactions T ds).redactionMap)).Pairwise
        (fun a b => b.length ≤ a.length) := by
      refine (sortBy_pairwise leLenDesc leLenDesc_total leLenDesc_trans
        _).imp ?_
      intro a b h
      exact of_decide_eq_true h
    have hmaskkeys : ∀ m ∈ sortBy leLenDesc
        (recKeys (applyRedactions T ds).redactionMap),
        m ≠ [] ∧ ∀ c ∈ m, c ∉ T := by
      intro m hm
      obtain ⟨f, hf, rfl⟩ := applyRedactions_keys T ds (mem_sortBy.mp hm)
      exact hmask f hf
    have hgaps : ∀ g, RSeg.gap g ∈ initSegs T 0 (ds.filter (·.confirmed)) →
        ∀ c ∈ g, c ∈ T :=
      fun g hg => initSegs_gap_mem _ 0 hg
    have horigs : ∀ m o d,
        RSeg.slot m o d ∈ initSegs T 0 (ds.filter (·.confirmed)) →
        ∀ c ∈ o, c ∈ T := by
      intro m o d hmem c hc
      obtain ⟨_, f, hf, hm, hoo⟩ := initSegs_slot_mem _ 0 hmem
      rw [hoo, (hvalid f hf).2.2] at hc
      exact mem_jsSlice hc
    have hundone : ∀ m o,
        RSeg.slot m o false ∈ initSegs T 0 (ds.filter (·.confirmed)) →
        m ∈ sortBy leLenDesc (recKeys (applyRedactions T ds).redactionMap) ∧
          recLookup (applyRedactions T ds).redactionMap m = some o := by
      intro m o hmem
      obtain ⟨_, f, hf, hm, hoo⟩ := initSegs_slot_mem _ 0 hmem
      subst hm
      subst hoo
      refine ⟨mem_sortBy.mpr ?_, hlookup f hf⟩
      by_contra hnot
      have hn := recLookup_none_iff.mpr hnot
      rw [hlookup f hf] at hn
      exact Option.noConfusion hn
    have hsep : slotsSeparated (initSegs T 0 (ds.filter (·.confirmed))) :=
      initSegs_separated _ 0 hchain hv'
    rw [hred]
    show (sortBy leLenDesc
        (recKeys (applyRedactions T ds).redactionMap)).foldl
        (fun result mask => jsReplaceAll mask
          ((recLookup (applyRedactions T ds).redactionMap mask).getD [])
          result)
        (rsegText (initSegs T 0 (ds.filter (·.confirmed)))) = T
    rw [unredact_fold_restores (applyRedactions T ds).redactionMap
      (sortBy leLenDesc (recKeys (applyRedactions T ds).redactionMap))
      (initSegs T 0 (ds.filter (·.confirmed)))
      hsorted hmaskkeys hgaps horigs hundone hsep]
    rw [rsegText_forceDone (ds.filter (·.confirmed)) 0
      (hchain.imp (fun a b h => le_of_lt h)) hvalid
      (fun f _ => Nat.zero_le _)]
    exact List.drop_zero T
  · intro f hf hconf hse horig hdis
    rw [hred, horig]
    exact slice_in_initSegs (ds.filter (·.confirmed)) 0 f.start f.«end»
      (Nat.zero_le _) hse hdis (fun g _ => Nat.zero_le _)
      (hchain.imp (fun a b h => le_of_lt h))
      (fun g hg => (hvalid g hg).1)

set_option maxRecDepth 100000 in
/-- C2 counterexample: the claim's own hypotheses (confirmed findings
non-overlapping, sorted by start, with `original = T.slice(start, end)`)
hold for `T = "M foo"` with the single confirmed finding masking `"foo"`
(span 2–5) by `"M"`, yet the round trip does not restore `T`: the mask
`"M"` also occurs as ordinary text at position 0, so `unRedact` rewrites
that occurrence too, producing `"foo foo"`. -/
theorem C2_counterexample :
    List.Chain' (fun a b => a.«end» < b.start)
      (([⟨PIIType.email, 2, 5, "foo".data, "M".data, true⟩] :
        List PIIDetection).filter (·.confirmed)) ∧
    (∀ f ∈ ([⟨PIIType.email, 2, 5, "foo".data, "M".data, true⟩] :
        List PIIDetection).filter (·.confirmed),
      f.start ≤ f.«end» ∧ f.«end» ≤ "M foo".data.length ∧
        f.original = jsSlice "M foo".data f.start f.«end») ∧
    unRedact (applyRedactions "M foo".data
        [⟨PIIType.email, 2, 5, "foo".data, "M".data, true⟩]).redactedText
      (applyRedactions "M foo".data
        [⟨PIIType.email, 2, 5, "foo".data, "M".data, true⟩]).redactionMap ≠
      "M foo".data := by
  refine ⟨List.chain'_singleton _, by decide, by decide⟩

set_option maxRecDepth 100000 in
theorem C2_round_trip_witness :
    unRedact (applyRedactions "abc def".data
        [⟨PIIType.email, 4, 7, "def".data, "[X]".data, true⟩]).redactedText
      (applyRedactions "abc def".data
        [⟨PIIType.email, 4, 7, "def".data, "[X]".data, true⟩]).redactionMap =
      "abc def".data ∧
    ∀ f ∈ ([⟨PIIType.email, 4, 7, "def".data, "[X]".data, true⟩] :
        List PIIDetection), f.confirmed = false → f.start ≤ f.«end» →
      f.original = jsSlice "abc def".data f.start f.«end» →
      (∀ g ∈ ([⟨PIIType.email, 4, 7, "def".data, "[X]".data, true⟩] :
          List PIIDetection).filter (·.confirmed),
        f.«end» ≤ g.start ∨ g.«end» ≤ f.start) →
      ∃ u v, (applyRedactions "abc def".data
        [⟨PIIType.email, 4, 7, "def".data, "[X]".data, true⟩]).redactedText =
        u ++ f.original ++ v :=
  C2_round_trip "abc def".data
    [⟨PIIType.email, 4, 7, "def".data, "[X]".data, true⟩]
    (List.chain'_singleton _) (by decide) (by decide) (by decide)

/-- C8 (amended): `unRedact` performs a literal replace-all per mask in
length-descending order.  When the masks of the map have pairwise-distinct
lengths its result does not depend on the map's insertion order; and for
any un-redaction input consisting of mask occurrences separated by
non-empty context runs — each occurrence bound in the map to its stored
original, with the context and the originals built from characters on
which no mask of the map draws — every occurrence of every mask (in
particular every occurrence of a mask that literally contains a shorter
mask of the map) is restored whole to its own original, uncorrupted by
the shorter mask's replacement. -/
theorem C8_unredact_longest_first :
    (∀ (text : List Char) (l1 l2 : List (List Char × List Char)),
      l1.Perm l2 → ((recKeys l1).map List.length).Nodup →
      unRedact text l1 = unRedact text l2) ∧
    (∀ (T : List Char) (mp : List (List Char × List Char))
      (segs : List RSeg),
      (∀ k ∈ recKeys mp, k ≠ [] ∧ ∀ c ∈ k, c ∉ T) →
      (∀ g, RSeg.gap g ∈ segs → ∀ c ∈ g, c ∈ T) →
      (∀ m o d, RSeg.slot m o d ∈ segs → ∀ c ∈ o, c ∈ T) →
      (∀ m o, RSeg.slot m o false ∈ segs → recLookup mp m = some o) →
      slotsSeparated segs →
      unRedact (rsegText segs) mp = rsegText (segs.map forceDone)) := by
  constructor
  · intro text l1 l2 hperm hnodup
    have hkeysperm : (recKeys l1).Perm (recKeys l2) := hperm.map Prod.fst
    have hkeynodup : (recKeys l1).Nodup := hnodup.of_map List.length
    have hlookup : ∀ k, recLookup l1 k = recLookup l2 k :=
      fun k => recLookup_perm hperm hkeynodup
    have hsorted : sortBy leLenDesc (recKeys l1) = sortBy leLenDesc (recKeys l2) := by
      have hperm' : (sortBy leLenDesc (recKeys l1)).Perm
          (sortBy leLenDesc (recKeys l2)) :=
        ((sortBy_perm _ _).trans hkeysperm).trans (sortBy_perm _ _).symm
      have hstrict : ∀ l : List (List Char),
          ((l.map List.length).Nodup) →
          (sortBy leLenDesc l).Pairwise
            (fun a b : List Char => b.length < a.length) := by
        intro l hnd
        have hle := sortBy_pairwise leLenDesc leLenDesc_total leLenDesc_trans l
        have hne : (sortBy leLenDesc l).Pairwise
            (fun a b : List Char => a.length ≠ b.length) := by
          refine List.pairwise_map.mp ?_
          have : ((sortBy leLenDesc l).map List.length).Perm
              (l.map List.length) := (sortBy_perm _ _).map _
          exact this.nodup_iff.mpr hnd
        refine (hle.and hne).imp ?_
        intro a b hab
        have h1 : b.length ≤ a.length := of_decide_eq_true hab.1
        have h2 : a.length ≠ b.length := hab.2
        omega
      refine eq_of_perm_of_pairwise_asymm ?_ hperm'
        (hstrict _ hnodup) (hstrict _ ?_)
      · intro a b h1 h2
        omega
      · exact (hkeysperm.map List.length).nodup_iff.mp hnodup
    unfold unRedact
    rw [hsorted]
    simp only [hlookup]
  · intro T mp segs hkeys hg hslot hund hsep
    show (sortBy leLenDesc (recKeys mp)).foldl
        (fun result mask => jsReplaceAll mask
          ((recLookup mp mask).getD []) result)
        (rsegText segs) = rsegText (segs.map forceDone)
    refine unredact_fold_restores mp _ segs ?_ ?_ hg hslot ?_ hsep
    · refine (sortBy_pairwise leLenDesc leLenDesc_total leLenDesc_trans
        _).imp ?_
      intro a b h
      exact of_decide_eq_true h
    · intro m hm
      exact hkeys m (mem_sortBy.mp hm)
    · intro m o h
      refine ⟨mem_sortBy.mpr ?_, hund m o h⟩
      by_contra hnot
      have hn := recLookup_none_iff.mpr hnot
      rw [hund m o h] at hn
      exact Option.noConfusion hn

set_option maxRecDepth 100000 in
/-- Witness for C8: two insertion orders of a map whose mask `[PERSON A]`
is a literal substring of its mask `[PERSON AB]` un-redact identically,
and on an input holding two occurrences of the longer mask around one of
the shorter, every occurrence is restored whole. -/
theorem C8_unredact_longest_first_witness :
    unRedact ("x [PERSON AB] y [PERSON A]".data)
        [("[PERSON AB]".data, "Kari".data), ("[PERSON A]".data, "Ola".data)] =
      unRedact ("x [PERSON AB] y [PERSON A]".data)
        [("[PERSON A]".data, "Ola".data), ("[PERSON AB]".data, "Kari".data)] ∧
    unRedact ("x[PERSON AB]y[PERSON A]x[PERSON AB]".data)
        [("[PERSON AB]".data, "kari".data), ("[PERSON A]".data, "ola".data)] =
      "xkariyolaxkari".data := by
  constructor
  · exact C8_unredact_longest_first.1 _ _ _ (by decide) (by decide)
  · have h := C8_unredact_longest_first.2 ("xykariol".data)
      [("[PERSON AB]".data, "kari".data), ("[PERSON A]".data, "ola".data)]
      [RSeg.gap ("x".data),
       RSeg.slot ("[PERSON AB]".data) ("kari".data) false,
       RSeg.gap ("y".data),
       RSeg.slot ("[PERSON A]".data) ("ola".data) false,
       RSeg.gap ("x".data),
       RSeg.slot ("[PERSON AB]".data) ("kari".data) false]
      (by decide)
      (by
        intro g hgmem
        simp at hgmem
        rcases hgmem with rfl | rfl | rfl <;> decide)
      (by
        intro m o d hmem
        simp at hmem
        rcases hmem with ⟨rfl, rfl, rfl⟩ | ⟨rfl, rfl, rfl⟩ |
          ⟨rfl, rfl, rfl⟩ <;> decide)
      (by
        intro m o hmem
        simp at hmem
        rcases hmem with ⟨rfl, rfl⟩ | ⟨rfl, rfl⟩ | ⟨rfl, rfl⟩ <;> decide)
      (⟨Or.inl (by decide), Or.inl (by decide), trivial, trivial⟩)
    have e1 : rsegText
        [RSeg.gap ("x".data),
         RSeg.slot ("[PERSON AB]".data) ("kari".data) false,
         RSeg.gap ("y".data),
         RSeg.slot ("[PERSON A]".data) ("ola".data) false,
         RSeg.gap ("x".data),
         RSeg.slot ("[PERSON AB]".data) ("kari".data) false] =
        "x[PERSON AB]y[PERSON A]x[PERSON AB]".data := by decide
    have e2 : rsegText
        ([RSeg.gap ("x".data),
          RSeg.slot ("[PERSON AB]".data) ("kari".data) false,
          RSeg.gap ("y".data),
          RSeg.slot ("[PERSON A]".data) ("ola".data) false,
          RSeg.gap ("x".data),
          RSeg.slot ("[PERSON AB]".data) ("kari".data) false].map
          forceDone) = "xkariyolaxkari".data := by decide
    rw [e1, e2] at h
    exact h

end Aura
